import Mathlib

/-!
Verification development for the MR-MPI MapReduce library
(src/new/keyvalue.cpp, src/new/mapreduce.cpp).

The KeyValue container is embedded at byte level: a page is a list of
byte values (naturals standing for chars), records are packed with the
exact alignment arithmetic of `KeyValue::add`, and page descriptors mirror
`struct Page` of keyvalue.h.  The engine driver (mapreduce.cpp) is
embedded at record level: a per-rank KV is a list of (key bytes, value
bytes) pairs, a KMV is a list of pages of key/multivalue records, and the
operators mirror the guard structure and data flow of the source.
-/

namespace MRMPI

/-- `KeyValue::roundup` (keyvalue.cpp:587-592) rounds `n` up to a multiple
of `a`, translated literally from the source.  The pointer macro
`ROUNDUP(A,B) = (A + B) & ~B` with `B = align-1` computes the same value
for power-of-two alignments, which is the only case the library accepts
(`MapReduce::allocate` validates alignments). -/
def roundup (n a : Nat) : Nat := if n % a = 0 then n else (n / a + 1) * a

/-- `INTMAX` (`0x7FFFFFFF`) from keyvalue.cpp:37. -/
def INTMAX : Nat := 2147483647

/-- `ALIGNFILE` (512-byte file alignment unit) from keyvalue.cpp:35. -/
def ALIGNFILE : Nat := 512

/-- Reinterpret a natural as a 32-bit two's-complement signed integer,
modelling C `int` overflow in the `MPI_INT` collective sums. -/
def toInt32 (n : Nat) : Int :=
  if n % 4294967296 < 2147483648 then ((n % 4294967296 : Nat) : Int)
  else ((n % 4294967296 : Nat) : Int) - 4294967296

/-- Little-endian 4-byte encoding of an `int32` length field, as written by
`*((int *) iptr) = keybytes` in `KeyValue::add` (keyvalue.cpp:267). -/
def le32 (n : Nat) : List Nat :=
  [n % 256, n / 256 % 256, n / 65536 % 256, n / 16777216 % 256]

/-- Read a 4-byte little-endian `int32` length field at offset `off`,
as done by `keybytes = *((int *) ptr)` during page iteration. -/
def readLE32 (bs : List Nat) (off : Nat) : Nat :=
  bs.getD off 0 + 256 * bs.getD (off + 1) 0 + 65536 * bs.getD (off + 2) 0 +
    16777216 * bs.getD (off + 3) 0

/-- Byte range of length `len` starting at offset `off` of a page. -/
def slice (bs : List Nat) (off len : Nat) : List Nat := (bs.drop off).take len

/-- Key and value alignment as configured on a `KeyValue`
(constructor arguments `memkalign`, `memvalign`, keyvalue.cpp:66-67). -/
structure Aligns where
  kalign : Nat
  valign : Nat
deriving Repr, DecidableEq

/-- `MapReduce::allocate` (mapreduce.cpp:264-269) accepts only power-of-two
key and value alignments; states with other alignments abort the group. -/
def Aligns.OK (al : Aligns) : Prop :=
  (∃ i, al.kalign = 2 ^ i) ∧ (∃ j, al.valign = 2 ^ j)

/-- `talign = MAX(kalign,valign); talign = MAX(talign,sizeof(int))`
(keyvalue.cpp:68-69), with `sizeof(int) = 4`. -/
def talign (al : Aligns) : Nat := max (max al.kalign al.valign) 4

/-- Offset of the key within a record: the two `int32` length fields
(`twolenbytes = 8`) rounded up to `kalign` (keyvalue.cpp:238-239). -/
def kofs (al : Aligns) : Nat := roundup 8 al.kalign

/-- Offset of the value within a record: key end rounded up to `valign`
(keyvalue.cpp:240-241). -/
def vofs (al : Aligns) (klen : Nat) : Nat := roundup (kofs al + klen) al.valign

/-- Aligned packed size of one record (`kvbytes = nptr - iptr`,
keyvalue.cpp:242-244), offsets taken relative to the record start. -/
def rsize (al : Aligns) (klen vlen : Nat) : Nat :=
  roundup (vofs al klen + vlen) (talign al)

/-- Byte image of one packed record exactly as `KeyValue::add` lays it out:
`int32 keybytes`, `int32 valuebytes`, pad to `kalign`, key bytes, pad to
`valign`, value bytes, pad to `talign`.  Pad bytes are modelled as zero;
the iteration code never reads them. -/
def encodeRec (al : Aligns) (key value : List Nat) : List Nat :=
  le32 key.length ++ le32 value.length ++
    List.replicate (kofs al - 8) 0 ++ key ++
    List.replicate (vofs al key.length - (kofs al + key.length)) 0 ++ value ++
    List.replicate
      (rsize al key.length value.length - (vofs al key.length + value.length)) 0

/-- Byte image of a whole page: records packed back to back. -/
def encodePage (al : Aligns) (rs : List (List Nat × List Nat)) : List Nat :=
  rs.flatMap fun r => encodeRec al r.1 r.2

/-- Decode one record from the front of a page tail: read the two length
fields, extract key and value byte ranges at the aligned offsets, and
report the aligned size consumed — the walk every consumer of
`request_page` performs (e.g. mapreduce.cpp:401-412). -/
def decodeRec (al : Aligns) (bs : List Nat) : (List Nat × List Nat) × Nat :=
  ((slice bs (kofs al) (readLE32 bs 0),
    slice bs (vofs al (readLE32 bs 0)) (readLE32 bs 4)),
   rsize al (readLE32 bs 0) (readLE32 bs 4))

/-- Decode `n` records from a page image. -/
def decodeRecs (al : Aligns) : Nat → List Nat → List (List Nat × List Nat)
  | 0, _ => []
  | n + 1, bs =>
    let d := decodeRec al bs
    d.1 :: decodeRecs al n (bs.drop d.2)

/-- Record start / key / value offsets visited when a consumer iterates `n`
records of a page, mirroring the absolute-pointer walk of the source
(cursor advances by the aligned record size). -/
def walkOffsets (al : Aligns) : Nat → Nat → List Nat → List (Nat × Nat × Nat)
  | 0, _, _ => []
  | n + 1, base, bs =>
    let klen := readLE32 bs 0
    let vlen := readLE32 bs 4
    let kptr := roundup (base + 8) al.kalign
    let vptr := roundup (kptr + klen) al.valign
    let nptr := roundup (vptr + vlen) (talign al)
    (base, kptr, vptr) :: walkOffsets al n nptr (bs.drop (nptr - base))

/-- `struct Page` page descriptor (keyvalue.h): record count, exact key and
value byte totals, exact data size, aligned size, file-aligned size and
cumulative file offset. -/
structure Page where
  nkey : Nat
  keysize : Nat
  valuesize : Nat
  exactsize : Nat
  alignsize : Nat
  filesize : Nat
  fileoffset : Nat
deriving Repr, DecidableEq

/-- State of a `KeyValue` container.  `pageBytes` holds the byte image of
each completed page (the spill file plus, for the final page, the
in-memory copy); `mem` is the working page being filled. -/
structure KV where
  al : Aligns
  pagesize : Nat
  pages : List Page
  pageBytes : List (List Nat)
  mem : List Nat
  nkey : Nat
  keysize : Nat
  valuesize : Nat
  alignsize : Nat
  nkv : Nat
  ksize : Nat
  vsize : Nat
  tsize : Nat
  fileflag : Bool
deriving Repr, DecidableEq

/-- A freshly constructed `KeyValue` (keyvalue.cpp:41-79): no pages, empty
working page, all totals zero, no spill file. -/
def freshKV (al : Aligns) (pagesize : Nat) : KV :=
  { al := al, pagesize := pagesize, pages := [], pageBytes := [], mem := []
    nkey := 0, keysize := 0, valuesize := 0, alignsize := 0
    nkv := 0, ksize := 0, vsize := 0, tsize := 0, fileflag := false }

/-- `KeyValue::init_page` (keyvalue.cpp:508-513): reset the in-memory page
counters (the working page region is reused). -/
def KV.initPage (kv : KV) : KV :=
  { kv with nkey := 0, keysize := 0, valuesize := 0, alignsize := 0, mem := [] }

/-- `KeyValue::create_page` (keyvalue.cpp:519-539): append a page
descriptor for the current in-memory page; `exactsize` is
`nkey*twolenbytes + keysize + valuesize`, `filesize` rounds the aligned
size up to the 512-byte unit, and `fileoffset` accumulates.  The byte image
of the page is captured alongside (written by `write_page` on spill, or
still resident for the final page). -/
def KV.createPage (kv : KV) : KV :=
  let off := match kv.pages.getLast? with
    | some p => p.fileoffset + p.filesize
    | none => 0
  { kv with
    pages := kv.pages ++
      [{ nkey := kv.nkey, keysize := kv.keysize, valuesize := kv.valuesize
         exactsize := kv.nkey * 8 + kv.keysize + kv.valuesize
         alignsize := kv.alignsize
         filesize := roundup kv.alignsize ALIGNFILE, fileoffset := off }]
    pageBytes := kv.pageBytes ++ [kv.mem] }

/-- The spill sequence of `KeyValue::add`'s full-page branch
(keyvalue.cpp:259-262): `create_page(); write_page(); npage++; init_page()`.
`write_page` opens the spill file, setting `fileflag`. -/
def KV.flushPage (kv : KV) : KV :=
  KV.initPage (KV.createPage { kv with fileflag := true })

/-- Aligned size of a record placed at page offset `base`, exactly the
pointer arithmetic of keyvalue.cpp:237-244 (`kptr`, `vptr`, `nptr` are the
successive roundups). -/
def kvbytesAt (al : Aligns) (base klen vlen : Nat) : Nat :=
  roundup (roundup (roundup (base + 8) al.kalign + klen) al.valign + vlen)
    (talign al) - base

/-- Write one record into the working page and bump the page counters
(keyvalue.cpp:267-275). -/
def KV.writeRec (kv : KV) (key value : List Nat) : KV :=
  { kv with
    mem := kv.mem ++ encodeRec kv.al key value
    nkey := kv.nkey + 1
    keysize := kv.keysize + key.length
    valuesize := kv.valuesize + value.length
    alignsize := kv.alignsize + kvbytesAt kv.al kv.alignsize key.length value.length }

/-- Fatal errors of the `add` path: "Single key/value pair exceeds int
size" (keyvalue.cpp:248) and "Single key/value pair exceeds page size"
(keyvalue.cpp:256). -/
inductive KVErr where
  | intSize
  | pageSize
deriving Repr, DecidableEq

/-- `KeyValue::add(char*,int,char*,int)` (keyvalue.cpp:235-276).  The
recursive re-attempt after a spill is unfolded once: after
`init_page()` the offsets restart at zero and `nkey = 0`, so the retry
either errors on an oversize record or succeeds. -/
def KV.add (kv : KV) (key value : List Nat) : Except KVErr KV :=
  let kvbytes := kvbytesAt kv.al kv.alignsize key.length value.length
  if 2147483648 ≤ kvbytes then .error .intSize
  else if kv.pagesize < kv.alignsize + kvbytes ∨ kv.nkey = INTMAX then
    if kv.alignsize = 0 then .error .pageSize
    else
      let kv2 := kv.flushPage
      let kvbytes2 := kvbytesAt kv.al 0 key.length value.length
      if 2147483648 ≤ kvbytes2 then .error .intSize
      else if kv.pagesize < kvbytes2 then .error .pageSize
      else .ok (kv2.writeRec key value)
  else .ok (kv.writeRec key value)

/-- A sequence of `add` calls; the first fatal error aborts. -/
def KV.addAll (kv : KV) : List (List Nat × List Nat) → Except KVErr KV
  | [] => .ok kv
  | r :: rs =>
    match kv.add r.1 r.2 with
    | .error e => .error e
    | .ok kv1 => kv1.addAll rs

/-- `KeyValue::complete` (keyvalue.cpp:167-191): freeze the final
in-memory page as one more page, reset the working page, and recompute the
container totals as sums over all page descriptors. -/
def KV.complete (kv : KV) : KV :=
  let kv1 := (kv.createPage).initPage
  { kv1 with
    nkv := (kv1.pages.map Page.nkey).sum
    ksize := (kv1.pages.map Page.keysize).sum
    vsize := (kv1.pages.map Page.valuesize).sum
    tsize := (kv1.pages.map Page.exactsize).sum }

/-- Full page-by-page iteration driven by `request_info`/`request_page`:
for each page, decode its `nkey` records from its byte image. -/
def KV.readAll (kv : KV) : List (List Nat × List Nat) :=
  (kv.pages.zip kv.pageBytes).flatMap fun pb => decodeRecs kv.al pb.1.nkey pb.2

/-- Record start / key / value offsets produced by a full page iteration. -/
def KV.iterOffsets (kv : KV) : List (Nat × Nat × Nat) :=
  (kv.pages.zip kv.pageBytes).flatMap fun pb => walkOffsets kv.al pb.1.nkey 0 pb.2

/-- Sum of key lengths of a record list. -/
def sumKey (rs : List (List Nat × List Nat)) : Nat :=
  (rs.map fun r => r.1.length).sum

/-- Sum of value lengths of a record list. -/
def sumVal (rs : List (List Nat × List Nat)) : Nat :=
  (rs.map fun r => r.2.length).sum

/-- The page descriptor `create_page` builds for a page holding the packed
records `rs`, placed at file offset `off`. -/
def pageOf (al : Aligns) (rs : List (List Nat × List Nat)) (off : Nat) : Page :=
  { nkey := rs.length, keysize := sumKey rs, valuesize := sumVal rs
    exactsize := rs.length * 8 + sumKey rs + sumVal rs
    alignsize := (encodePage al rs).length
    filesize := roundup (encodePage al rs).length ALIGNFILE
    fileoffset := off }

/-- Page descriptors for a list of pages of records, accumulating file
offsets as `create_page` does. -/
def mkPages (al : Aligns) : List (List (List Nat × List Nat)) → Nat → List Page
  | [], _ => []
  | rs :: rest, off =>
    pageOf al rs off ::
      mkPages al rest (off + roundup (encodePage al rs).length ALIGNFILE)

/-- Total file-aligned size of a list of packed pages (the file offset of
the next page to be appended). -/
def filesizeSum (al : Aligns) (pss : List (List (List Nat × List Nat))) : Nat :=
  (pss.map fun rs => roundup (encodePage al rs).length ALIGNFILE).sum

/-- All key and value lengths fit in an `int32`, as `add` enforces. -/
def SmallRecs (rs : List (List Nat × List Nat)) : Prop :=
  ∀ r ∈ rs, r.1.length < 2147483648 ∧ r.2.length < 2147483648

/-- Representation invariant tying a `KV` state to the record pages
`pss` already frozen by `create_page` and the records `cur` of the
working page. -/
structure KVRep (kv : KV) (pss : List (List (List Nat × List Nat)))
    (cur : List (List Nat × List Nat)) : Prop where
  pages_eq : kv.pages = mkPages kv.al pss 0
  bytes_eq : kv.pageBytes = pss.map (encodePage kv.al)
  mem_eq : kv.mem = encodePage kv.al cur
  nkey_eq : kv.nkey = cur.length
  keysize_eq : kv.keysize = sumKey cur
  valuesize_eq : kv.valuesize = sumVal cur
  alignsize_eq : kv.alignsize = (encodePage kv.al cur).length
  small : SmallRecs (pss.flatten ++ cur)

/-! ## Driver-level embedding (mapreduce.cpp)

The engine driver is embedded at record level: a per-rank KV is the list
of its `(key bytes, value bytes)` records in container order, a KMV is a
list of pages of key/multivalue records.  The group of ranks executes in
lock-step, so the driver state is SPMD-uniform: one optional KV / KMV
carrying the per-rank contents. -/

/-- A KV record as seen by the driver. -/
abbrev KVPair := List Nat × List Nat

/-- Key or value selector used by `sort_kv(flag)` (mapreduce.cpp:1693-1699):
`flag = 0` sorts by key, `flag = 1` by value. -/
def sel (flag : Nat) (r : KVPair) : List Nat := if flag = 0 then r.1 else r.2

/-- `MapReduce::merge` (mapreduce.cpp:1803-1868): merge two sorted spools.
`result <= 0` emits from the first source, `result >= 0` from the second;
on a tie both records are emitted in the same iteration, first source
first. -/
def mergeSp (cmp : List Nat → List Nat → Int) (flag : Nat) :
    List KVPair → List KVPair → List KVPair
  | [], ys => ys
  | x :: xs, [] => x :: xs
  | x :: xs, y :: ys =>
    let c := cmp (sel flag x) (sel flag y)
    if c < 0 then x :: mergeSp cmp flag xs (y :: ys)
    else if 0 < c then y :: mergeSp cmp flag (x :: xs) ys
    else x :: y :: mergeSp cmp flag xs ys
termination_by xs ys => xs.length + ys.length

/-- The spool merge chain of `sort_kv` (mapreduce.cpp:1761-1772): with
`nspool = 2*npage - 1` slots, merge the two oldest unconsumed spools and
append the result until one spool remains. -/
def mergeQueue (cmp : List Nat → List Nat → Int) (flag : Nat) :
    List (List KVPair) → List KVPair
  | [] => []
  | [x] => x
  | x :: y :: rest => mergeQueue cmp flag (rest ++ [mergeSp cmp flag x y])
termination_by l => l.length
decreasing_by simp

/-- The in-memory index sort of one page (mapreduce.cpp:1702-1706):
`qsort` over an index vector with the user comparator, then the page is
rewritten in sorted order.  `qsort` is an unstable comparison sort; it is
modelled by insertion sort, which produces one of its possible outputs. -/
def pageSort (cmp : List Nat → List Nat → Int) (flag : Nat)
    (p : List KVPair) : List KVPair :=
  List.insertionSort (fun a b => cmp (sel flag a) (sel flag b) ≤ 0) p

/-- `MapReduce::sort_kv` (mapreduce.cpp:1632-1796) at record level: each
page is sorted locally; a single page is rewritten in place, multiple
pages are written to spools and merge-sorted pairwise until one spool
remains, which is repacked into a new KV. -/
def sortKVrun (cmp : List Nat → List Nat → Int) (flag : Nat)
    (pages : List (List KVPair)) : List KVPair :=
  if pages.length = 1 then pageSort cmp flag (pages.headD [])
  else mergeQueue cmp flag (pages.map (pageSort cmp flag))

/-- A KMV record (§3.3 of keymultivalue layout): `inline` holds a positive
`nvalues` record with its value list; `blockSplit` abstracts a negative
`nvalues` header record together with the contents of its `|nvalues|`
block pages (one value-list per block). -/
inductive KMVRec where
  | inline (key : List Nat) (values : List (List Nat))
  | blockSplit (key : List Nat) (blocks : List (List (List Nat)))
deriving Repr, DecidableEq

/-- Whether a KMV record is a block-split (negative `nvalues`) record. -/
def KMVRec.isBlock : KMVRec → Bool
  | .inline _ _ => false
  | .blockSplit _ _ => true

/-- Key and multiset of values of a KMV record (a block-split record's
values are the union of its blocks). -/
def KMVRec.keyValues : KMVRec → List Nat × Multiset (List Nat)
  | .inline k vs => (k, (vs : Multiset (List Nat)))
  | .blockSplit k bs => (k, ((bs.flatMap id : List (List Nat)) : Multiset (List Nat)))

/-- A rank's KMV abstracted to the multiset of
`(key, multiset-of-values)` pairs. -/
def kmvAbstract (pages : List (List KMVRec)) : Multiset (List Nat × Multiset (List Nat)) :=
  ((pages.flatMap id).map KMVRec.keyValues : List (List Nat × Multiset (List Nat)))

/-- Values grouped under key `k`, in insertion order. -/
def valuesOf (recs : List KVPair) (k : List Nat) : List (List Nat) :=
  (recs.filter fun r => r.1 == k).map Prod.snd

/-- Modelled from the spec: `KeyMultiValue::convert` (keymultivalue.cpp is
not in the source tree; §4.5 of the spec).  Groups a rank's KV records by
key: one KMV record per distinct key, values concatenated in insertion
order.  The spec leaves the cross-key emission order to the bucketing
hash; first-occurrence order is used here.  Block-splitting of oversize
multivalues does not change the `(key, multiset-of-values)` abstraction
and is not modelled. -/
def convertRun (recs : List KVPair) : List (List KMVRec) :=
  [(recs.map Prod.fst).dedup.map fun k => KMVRec.inline k (valuesOf recs k)]

/-- Modelled from the spec: `KeyMultiValue::clone` (§4.6): one KMV record
per KV record, each with a single value. -/
def cloneRun (recs : List KVPair) : List (List KMVRec) :=
  [recs.map fun r => KMVRec.inline r.1 [r.2]]

/-- Modelled from the spec: `KeyMultiValue::collapse` (§4.6): one KMV
record whose key is the supplied constant and whose values alternate the
old keys and values in insertion order. -/
def collapseRun (key : List Nat) (recs : List KVPair) : List (List KMVRec) :=
  [[KMVRec.inline key (recs.flatMap fun r => [r.1, r.2])]]

/-- `MapReduce::aggregate` (mapreduce.cpp:341-468) at record level: with
one rank it returns immediately; otherwise every record moves to rank
`hash(key) % nprocs`.  Per-source order within a destination is preserved
by the irregular exchange; sources are concatenated in rank order. -/
def aggregateRun (hash : List Nat → Nat) (p : Nat)
    (ranks : List (List KVPair)) : List (List KVPair) :=
  if p = 1 then ranks
  else (List.range p).map fun r =>
    ranks.flatMap fun src => src.filter fun q => hash q.1 % p == r

/-- `MapReduce::gather` (mapreduce.cpp:665-733) at record level: ranks
below `q` keep their records and append those of the ranks `i ≥ q` with
`i % q` equal to their id, in ascending rank order; higher ranks end up
with a fresh empty KV. -/
def gatherRun (p q : Nat) (kvs : List (List KVPair)) : List (List KVPair) :=
  if p = 1 ∨ q = p then kvs
  else (List.range p).map fun r =>
    if r < q then
      kvs.getD r [] ++
        ((List.range p).filter fun i => decide (q ≤ i) && (i % q == r)).flatMap
          fun i => kvs.getD i []
    else []

/-- Tasks the strided loop `for (itask = me; itask < nmap; itask += nprocs)`
(mapreduce.cpp:782-783) executes.  The fuel argument bounds the iteration
count (`nmap` iterations always suffice for `nprocs ≥ 1`). -/
def strideAux (p n : Nat) : Nat → Nat → List Nat
  | 0, _ => []
  | fuel + 1, t => if t < n then t :: strideAux p n fuel (t + p) else []

/-- Tasks of the contiguous-chunk assignment (mapreduce.cpp:775-779):
`lo = me*nmap/nprocs`, `hi = (me+1)*nmap/nprocs`. -/
def chunkTasks (p n r : Nat) : List Nat :=
  (List.range ((r + 1) * n / p - r * n / p)).map fun i => r * n / p + i

/-- Task indices rank `r` executes in `MapReduce::map`
(mapreduce.cpp:770-823).  With one rank every task runs locally whatever
the `mapstyle`; otherwise style 0 is the contiguous chunk, style 1 the
strided loop.  Style 2 (master/worker) assigns tasks by message arrival
order and is not modelled; no claim depends on it. -/
def rankTasks (style : Int) (p n r : Nat) : List Nat :=
  if p = 1 then List.range n
  else if style = 0 then chunkTasks p n r
  else if style = 1 then strideAux p n n r
  else []

/-- The `MPI_Allreduce(&kv->nkv,&nkeyall,1,MPI_INT,MPI_SUM,comm)` return
path shared by every operator (e.g. mapreduce.cpp:827-831): the per-rank
`int` counts are summed as C `int`s, so the result is the total record
count reduced into a 32-bit signed integer. -/
def allreduceSumInt (counts : List Nat) : Int := toInt32 counts.sum

/-- Per-rank KV record counts (`kv->nkv` on each rank). -/
def kvCounts (kvs : List (List KVPair)) : List Nat := kvs.map List.length

/-- Per-rank KMV record counts (`kmv->nkmv` on each rank). -/
def kmvCounts (kmvs : List (List (List KMVRec))) : List Nat :=
  kmvs.map fun pages => (pages.map List.length).sum

/-- SPMD-uniform driver state: settings plus the live KV or KMV, each
carrying per-rank contents. -/
structure MRState where
  nprocs : Nat
  mapstyle : Int
  verbosity : Nat
  timer : Nat
  kv : Option (List (List KVPair))
  kmv : Option (List (List (List KMVRec)))
deriving Repr, DecidableEq

/-- `MapReduce::aggregate` (mapreduce.cpp:341-468): fatal without a live
KV; with one rank returns its own count; otherwise shuffles and returns
the collective sum. -/
def MRState.aggregateOp (hash : List Nat → Nat) (st : MRState) :
    Except String (MRState × Int) :=
  match st.kv with
  | none => .error "Cannot aggregate without KeyValue"
  | some kvs =>
    if st.nprocs = 1 then .ok (st, allreduceSumInt (kvCounts kvs))
    else
      let kvnew := aggregateRun hash st.nprocs kvs
      .ok ({ st with kv := some kvnew }, allreduceSumInt (kvCounts kvnew))

/-- `MapReduce::convert` (mapreduce.cpp:641-658): fatal without a live KV;
replaces the KV by the locally grouped KMV. -/
def MRState.convertOp (st : MRState) : Except String (MRState × Int) :=
  match st.kv with
  | none => .error "Cannot convert without KeyValue"
  | some kvs =>
    let kmvs := kvs.map convertRun
    .ok ({ st with kv := none, kmv := some kmvs },
      allreduceSumInt (kmvCounts kmvs))

/-- `MapReduce::collate` (mapreduce.cpp:527-546): fatal without a live KV;
silences verbosity and timer, runs `aggregate` then `convert`, restores
the settings and returns the collective KMV count. -/
def MRState.collateOp (hash : List Nat → Nat) (st : MRState) :
    Except String (MRState × Int) :=
  match st.kv with
  | none => .error "Cannot collate without KeyValue"
  | some _ =>
    match MRState.aggregateOp hash { st with verbosity := 0, timer := 0 } with
    | .error e => .error e
    | .ok a =>
      match MRState.convertOp a.1 with
      | .error e => .error e
      | .ok c =>
        .ok ({ c.1 with verbosity := st.verbosity, timer := st.timer },
          allreduceSumInt (kmvCounts (c.1.kmv.getD [])))

/-- `MapReduce::clone` (mapreduce.cpp:476-493): fatal without a live KV. -/
def MRState.cloneOp (st : MRState) : Except String (MRState × Int) :=
  match st.kv with
  | none => .error "Cannot clone without KeyValue"
  | some kvs =>
    let kmvs := kvs.map cloneRun
    .ok ({ st with kv := none, kmv := some kmvs },
      allreduceSumInt (kmvCounts kmvs))

/-- `MapReduce::collapse` (mapreduce.cpp:502-519): fatal without a live KV. -/
def MRState.collapseOp (key : List Nat) (st : MRState) :
    Except String (MRState × Int) :=
  match st.kv with
  | none => .error "Cannot collapse without KeyValue"
  | some kvs =>
    let kmvs := kvs.map (collapseRun key)
    .ok ({ st with kv := none, kmv := some kmvs },
      allreduceSumInt (kmvCounts kmvs))

/-- `MapReduce::reduce` (mapreduce.cpp:1347-1416): fatal without a live
KMV; the user callback `g` consumes each KMV record and emits new KV
records. -/
def MRState.reduceOp (g : KMVRec → List KVPair) (st : MRState) :
    Except String (MRState × Int) :=
  match st.kmv with
  | none => .error "Cannot reduce without KeyMultiValue"
  | some kmvs =>
    let kvs := kmvs.map fun pages => (pages.flatMap id).flatMap g
    .ok ({ st with kmv := none, kv := some kvs },
      allreduceSumInt (kvCounts kvs))

/-- `MapReduce::compress` (mapreduce.cpp:557-631): fatal without a live
KV; converts locally to a temporary KMV and reduces it back to a KV with
the user callback. -/
def MRState.compressOp (g : KMVRec → List KVPair) (st : MRState) :
    Except String (MRState × Int) :=
  match st.kv with
  | none => .error "Cannot compress without KeyValue"
  | some kvs =>
    let kvs2 := kvs.map fun recs => ((convertRun recs).flatMap id).flatMap g
    .ok ({ st with kv := some kvs2 }, allreduceSumInt (kvCounts kvs2))

/-- `MapReduce::gather` (mapreduce.cpp:665-733): fatal without a live KV
or with a proc count outside `[1, nprocs]`. -/
def MRState.gatherOp (q : Nat) (st : MRState) : Except String (MRState × Int) :=
  match st.kv with
  | none => .error "Cannot gather without KeyValue"
  | some kvs =>
    if q < 1 ∨ st.nprocs < q then .error "Invalid proc count for gather"
    else
      let kvnew := gatherRun st.nprocs q kvs
      .ok ({ st with kv := some kvnew }, allreduceSumInt (kvCounts kvnew))

/-- `MapReduce::sort_keys` (mapreduce.cpp:1490-1503): fatal without a live
KV; sorts each rank's records by key. -/
def MRState.sortKeysOp (cmp : List Nat → List Nat → Int) (st : MRState) :
    Except String (MRState × Int) :=
  match st.kv with
  | none => .error "Cannot sort_keys without KeyValue"
  | some kvs =>
    let kvnew := kvs.map fun recs => sortKVrun cmp 0 [recs]
    .ok ({ st with kv := some kvnew }, allreduceSumInt (kvCounts kvnew))

/-- `MapReduce::sort_values` (mapreduce.cpp:1511-1524): fatal without a
live KV; sorts each rank's records by value. -/
def MRState.sortValuesOp (cmp : List Nat → List Nat → Int) (st : MRState) :
    Except String (MRState × Int) :=
  match st.kv with
  | none => .error "Cannot sort_values without KeyValue"
  | some kvs =>
    let kvnew := kvs.map fun recs => sortKVrun cmp 1 [recs]
    .ok ({ st with kv := some kvnew }, allreduceSumInt (kvCounts kvnew))

/-- One record of `MapReduce::sort_multivalues` (mapreduce.cpp:1559-1610):
a negative `nvalues` is the fatal error "Cannot yet sort multivalues for a
multiple block KeyMultiValue"; otherwise the values are qsorted with the
user comparator and rewritten (modelled by insertion sort). -/
def sortMVRec (cmp : List Nat → List Nat → Int) :
    KMVRec → Except String KMVRec
  | .inline k vs =>
    .ok (.inline k (List.insertionSort (fun a b => cmp a b ≤ 0) vs))
  | .blockSplit _ _ =>
    .error "Cannot yet sort multivalues for a multiple block KeyMultiValue"

/-- Process the records of one KMV page in order, aborting at the first
block-split record. -/
def sortMVPage (cmp : List Nat → List Nat → Int) :
    List KMVRec → Except String (List KMVRec)
  | [] => .ok []
  | r :: rs =>
    match sortMVRec cmp r with
    | .error e => .error e
    | .ok r1 =>
      match sortMVPage cmp rs with
      | .error e => .error e
      | .ok rs1 => .ok (r1 :: rs1)

/-- `MapReduce::sort_multivalues` over the pages of one rank's KMV
(mapreduce.cpp:1554-1615): pages are processed in order and the first
block-split record aborts. -/
def sortMVRun (cmp : List Nat → List Nat → Int) :
    List (List KMVRec) → Except String (List (List KMVRec))
  | [] => .ok []
  | p :: ps =>
    match sortMVPage cmp p with
    | .error e => .error e
    | .ok p1 =>
      match sortMVRun cmp ps with
      | .error e => .error e
      | .ok ps1 => .ok (p1 :: ps1)

/-- `sort_multivalues` across the ranks of the group; `error->one` on any
rank aborts the whole group. -/
def sortMVAll (cmp : List Nat → List Nat → Int) :
    List (List (List KMVRec)) → Except String (List (List (List KMVRec)))
  | [] => .ok []
  | r :: rs =>
    match sortMVRun cmp r with
    | .error e => .error e
    | .ok r1 =>
      match sortMVAll cmp rs with
      | .error e => .error e
      | .ok rs1 => .ok (r1 :: rs1)

/-- `MapReduce::sort_multivalues` (mapreduce.cpp:1533-1625): fatal without
a live KMV; rewrites each multivalue sorted in place. -/
def MRState.sortMultivaluesOp (cmp : List Nat → List Nat → Int)
    (st : MRState) : Except String (MRState × Int) :=
  match st.kmv with
  | none => .error "Cannot sort_multivalues without KeyMultiValue"
  | some kmvs =>
    match sortMVAll cmp kmvs with
    | .error e => .error e
    | .ok kmvs2 =>
      .ok ({ st with kmv := some kmvs2 }, allreduceSumInt (kmvCounts kmvs2))

/-- `MapReduce::add` (mapreduce.cpp:311-330): fatal without a live KV,
when the other engine has no KV, or when adding an engine to itself
(`self` models the pointer equality `mr == this`). -/
def MRState.addOp (st : MRState) (otherKV : Option (List (List KVPair)))
    (self : Bool) : Except String (MRState × Int) :=
  match st.kv with
  | none => .error "Cannot add without KeyValue"
  | some kvs =>
    match otherKV with
    | none => .error "MapReduce passed to add() does not have KeyValue pairs"
    | some other =>
      if self then .error "Cannot add to self"
      else
        let kvnew := kvs.zipWith (· ++ ·) other
        .ok ({ st with kv := some kvnew }, allreduceSumInt (kvCounts kvnew))

/-- `MapReduce::map(int, fn, ...)` (mapreduce.cpp:741-832): a `mapstyle`
other than 0, 1 or 2 is fatal, but only when the task dispatch is reached
with more than one rank; rank `r` runs the tasks `rankTasks` assigns it,
appending to the previous KV when `addflag` is set. -/
def MRState.mapOp (gen : Nat → List KVPair) (nmap : Nat) (addflag : Bool)
    (st : MRState) : Except String (MRState × Int) :=
  if st.nprocs ≠ 1 ∧ st.mapstyle ≠ 0 ∧ st.mapstyle ≠ 1 ∧ st.mapstyle ≠ 2 then
    .error "Invalid mapstyle setting"
  else
    let base := if addflag then st.kv.getD (List.replicate st.nprocs []) else
      List.replicate st.nprocs []
    let kvs := (List.range st.nprocs).map fun r =>
      base.getD r [] ++ (rankTasks st.mapstyle st.nprocs nmap r).flatMap gen
    .ok ({ st with kmv := none, kv := some kvs },
      allreduceSumInt (kvCounts kvs))

/-! ## Arithmetic lemmas about `roundup` and alignments -/

theorem roundup_ge (n a : Nat) (ha : 0 < a) : n ≤ roundup n a := by
  unfold roundup
  split
  · exact le_refl n
  · have h1 := Nat.div_add_mod n a
    have h2 : n % a < a := Nat.mod_lt n ha
    have h3 : (n / a + 1) * a = a * (n / a) + a := by ring
    rw [h3]
    omega

theorem roundup_dvd (n a : Nat) : a ∣ roundup n a := by
  unfold roundup
  split
  · exact Nat.dvd_of_mod_eq_zero (by assumption)
  · exact Dvd.intro_left _ rfl

theorem roundup_eq_of_mod (n a : Nat) (h : n % a = 0) : roundup n a = n := by
  unfold roundup
  rw [if_pos h]

theorem roundup_eq_of_dvd (n a : Nat) (h : a ∣ n) : roundup n a = n := by
  obtain ⟨k, rfl⟩ := h
  exact roundup_eq_of_mod _ a (Nat.mul_mod_right a k)

theorem roundup_shift (m n a : Nat) (ha : 0 < a) (h : a ∣ m) :
    roundup (m + n) a = m + roundup n a := by
  obtain ⟨k, rfl⟩ := h
  unfold roundup
  have hmod : (a * k + n) % a = n % a := by
    simp [Nat.add_mul_mod_self_left, Nat.mul_add_mod]
  rw [hmod]
  split
  · rfl
  · have hdiv : (a * k + n) / a = k + n / a := by
      rw [Nat.add_comm (a * k) n, Nat.add_mul_div_left n k ha, Nat.add_comm]
    rw [hdiv]
    ring

theorem pow_two_max (i j : Nat) : max (2 ^ i) (2 ^ j) = 2 ^ max i j := by
  rcases le_total i j with h | h
  · rw [Nat.max_eq_right (Nat.pow_le_pow_right (by norm_num) h), Nat.max_eq_right h]
  · rw [Nat.max_eq_left (Nat.pow_le_pow_right (by norm_num) h), Nat.max_eq_left h]

theorem talign_pow (al : Aligns) (hal : al.OK) :
    ∃ t, talign al = 2 ^ t := by
  obtain ⟨⟨i, hi⟩, ⟨j, hj⟩⟩ := hal
  refine ⟨max (max i j) 2, ?_⟩
  have h4 : (4 : Nat) = 2 ^ 2 := by norm_num
  rw [talign, hi, hj, h4, pow_two_max, pow_two_max]

theorem kalign_pos (al : Aligns) (hal : al.OK) : 0 < al.kalign := by
  obtain ⟨⟨i, hi⟩, _⟩ := hal
  rw [hi]; exact Nat.pos_pow_of_pos i (by norm_num)

theorem valign_pos (al : Aligns) (hal : al.OK) : 0 < al.valign := by
  obtain ⟨_, ⟨j, hj⟩⟩ := hal
  rw [hj]; exact Nat.pos_pow_of_pos j (by norm_num)

theorem talign_pos (al : Aligns) : 0 < talign al := by
  unfold talign; omega

theorem kalign_dvd_talign (al : Aligns) (hal : al.OK) :
    al.kalign ∣ talign al := by
  obtain ⟨⟨i, hi⟩, ⟨j, hj⟩⟩ := hal
  have h4 : (4 : Nat) = 2 ^ 2 := by norm_num
  rw [talign, hi, hj, h4, pow_two_max, pow_two_max]
  exact pow_dvd_pow 2 (le_trans (le_max_left i j) (le_max_left _ 2))

theorem valign_dvd_talign (al : Aligns) (hal : al.OK) :
    al.valign ∣ talign al := by
  obtain ⟨⟨i, hi⟩, ⟨j, hj⟩⟩ := hal
  have h4 : (4 : Nat) = 2 ^ 2 := by norm_num
  rw [talign, hi, hj, h4, pow_two_max, pow_two_max]
  exact pow_dvd_pow 2 (le_trans (le_max_right i j) (le_max_left _ 2))

theorem kofs_ge (al : Aligns) (hal : al.OK) : 8 ≤ kofs al :=
  roundup_ge 8 al.kalign (kalign_pos al hal)

theorem vofs_ge (al : Aligns) (hal : al.OK) (klen : Nat) :
    kofs al + klen ≤ vofs al klen :=
  roundup_ge _ al.valign (valign_pos al hal)

theorem rsize_ge (al : Aligns) (klen vlen : Nat) :
    vofs al klen + vlen ≤ rsize al klen vlen :=
  roundup_ge _ (talign al) (talign_pos al)

theorem talign_dvd_rsize (al : Aligns) (klen vlen : Nat) :
    talign al ∣ rsize al klen vlen :=
  roundup_dvd _ _

/-- The aligned size computed from the running page offset equals the
record's intrinsic aligned size, provided the offset is record-aligned. -/
theorem kvbytesAt_shift (al : Aligns) (hal : al.OK) (base klen vlen : Nat)
    (hb : talign al ∣ base) :
    kvbytesAt al base klen vlen = rsize al klen vlen := by
  have hk : al.kalign ∣ base := dvd_trans (kalign_dvd_talign al hal) hb
  have hv : al.valign ∣ base := dvd_trans (valign_dvd_talign al hal) hb
  unfold kvbytesAt
  rw [roundup_shift base 8 al.kalign (kalign_pos al hal) hk]
  rw [show base + roundup 8 al.kalign + klen = base + (kofs al + klen) by
    rw [kofs]; ring]
  rw [roundup_shift base (kofs al + klen) al.valign (valign_pos al hal) hv]
  rw [show base + roundup (kofs al + klen) al.valign + vlen
        = base + (vofs al klen + vlen) by rw [vofs]; ring]
  rw [roundup_shift base (vofs al klen + vlen) (talign al) (talign_pos al) hb]
  rw [rsize]
  omega

theorem kvbytesAt_zero (al : Aligns) (hal : al.OK) (klen vlen : Nat) :
    kvbytesAt al 0 klen vlen = rsize al klen vlen :=
  kvbytesAt_shift al hal 0 klen vlen (dvd_zero _)

theorem kvbytesAt_lower (al : Aligns) (hal : al.OK) (base klen vlen : Nat)
    (hb : talign al ∣ base) :
    8 + klen + vlen ≤ kvbytesAt al base klen vlen := by
  rw [kvbytesAt_shift al hal base klen vlen hb]
  have h1 := kofs_ge al hal
  have h2 := vofs_ge al hal klen
  have h3 := rsize_ge al klen vlen
  omega

/-! ## Encode / decode round trip -/

theorem le32_length (n : Nat) : (le32 n).length = 4 := by simp [le32]

theorem readLE32_le32 (n : Nat) (hn : n < 4294967296) (rest : List Nat) :
    readLE32 (le32 n ++ rest) 0 = n := by
  simp only [le32, readLE32, List.cons_append, List.nil_append,
    List.getD_cons_zero, List.getD_cons_succ]
  omega

theorem readLE32_le32_four (m n : Nat) (hn : n < 4294967296) (rest : List Nat) :
    readLE32 (le32 m ++ (le32 n ++ rest)) 4 = n := by
  simp only [le32, readLE32, List.cons_append, List.nil_append,
    List.getD_cons_zero, List.getD_cons_succ]
  omega

theorem slice_append (pre post : List Nat) (len : Nat) :
    slice (pre ++ post) pre.length len = post.take len := by
  simp [slice, List.drop_left]

theorem slice_append_at (pre post : List Nat) (off len : Nat)
    (h : pre.length = off) :
    slice (pre ++ post) off len = post.take len := by
  subst h
  exact slice_append pre post len

theorem encodeRec_length (al : Aligns) (hal : al.OK) (k v : List Nat) :
    (encodeRec al k v).length = rsize al k.length v.length := by
  have h1 := kofs_ge al hal
  have h2 := vofs_ge al hal k.length
  have h3 := rsize_ge al k.length v.length
  simp [encodeRec, le32]
  omega

theorem encodeRec_key (al : Aligns) (hal : al.OK) (k v : List Nat)
    (rest : List Nat) :
    slice (encodeRec al k v ++ rest) (kofs al) k.length = k := by
  have h1 := kofs_ge al hal
  have hpre : encodeRec al k v ++ rest
      = (le32 k.length ++ le32 v.length ++ List.replicate (kofs al - 8) 0)
        ++ (k ++ (List.replicate (vofs al k.length - (kofs al + k.length)) 0
            ++ v ++ List.replicate (rsize al k.length v.length
              - (vofs al k.length + v.length)) 0 ++ rest)) := by
    simp [encodeRec]
  have hlen : (le32 k.length ++ le32 v.length
      ++ List.replicate (kofs al - 8) 0).length = kofs al := by
    simp [le32]; omega
  rw [hpre, slice_append_at _ _ _ _ hlen, List.take_left]

theorem encodeRec_value (al : Aligns) (hal : al.OK) (k v : List Nat)
    (rest : List Nat) :
    slice (encodeRec al k v ++ rest) (vofs al k.length) v.length = v := by
  have h1 := kofs_ge al hal
  have h2 := vofs_ge al hal k.length
  have hpre : encodeRec al k v ++ rest
      = (le32 k.length ++ le32 v.length ++ List.replicate (kofs al - 8) 0
          ++ k ++ List.replicate (vofs al k.length - (kofs al + k.length)) 0)
        ++ (v ++ (List.replicate (rsize al k.length v.length
              - (vofs al k.length + v.length)) 0 ++ rest)) := by
    simp [encodeRec]
  have hlen : (le32 k.length ++ le32 v.length
      ++ List.replicate (kofs al - 8) 0 ++ k
      ++ List.replicate (vofs al k.length - (kofs al + k.length)) 0).length
      = vofs al k.length := by
    simp [le32]; omega
  rw [hpre, slice_append_at _ _ _ _ hlen, List.take_left]

theorem decodeRec_encodeRec (al : Aligns) (hal : al.OK) (k v : List Nat)
    (hk : k.length < 2147483648) (hv : v.length < 2147483648)
    (rest : List Nat) :
    decodeRec al (encodeRec al k v ++ rest)
      = ((k, v), rsize al k.length v.length) := by
  have hklen : readLE32 (encodeRec al k v ++ rest) 0 = k.length := by
    have : encodeRec al k v ++ rest = le32 k.length ++ (le32 v.length
        ++ List.replicate (kofs al - 8) 0 ++ k
        ++ List.replicate (vofs al k.length - (kofs al + k.length)) 0 ++ v
        ++ List.replicate (rsize al k.length v.length
          - (vofs al k.length + v.length)) 0 ++ rest) := by
      simp [encodeRec]
    rw [this, readLE32_le32 k.length (by omega)]
  have hvlen : readLE32 (encodeRec al k v ++ rest) 4 = v.length := by
    have : encodeRec al k v ++ rest = le32 k.length ++ (le32 v.length
        ++ (List.replicate (kofs al - 8) 0 ++ k
        ++ List.replicate (vofs al k.length - (kofs al + k.length)) 0 ++ v
        ++ List.replicate (rsize al k.length v.length
          - (vofs al k.length + v.length)) 0 ++ rest)) := by
      simp [encodeRec]
    rw [this, readLE32_le32_four _ v.length (by omega)]
  unfold decodeRec
  rw [hklen, hvlen, encodeRec_key al hal k v rest, encodeRec_value al hal k v rest]

theorem decodeRecs_encodePage (al : Aligns) (hal : al.OK)
    (rs : List (List Nat × List Nat)) (hs : SmallRecs rs) (rest : List Nat) :
    decodeRecs al rs.length (encodePage al rs ++ rest) = rs := by
  induction rs with
  | nil => simp [decodeRecs]
  | cons r rs ih =>
    have hr := hs r (List.mem_cons_self r rs)
    have hrs : SmallRecs rs := fun q hq => hs q (List.mem_cons_of_mem r hq)
    have hflat : encodePage al (r :: rs) ++ rest
        = encodeRec al r.1 r.2 ++ (encodePage al rs ++ rest) := by
      simp [encodePage]
    rw [List.length_cons, hflat]
    show (decodeRec al _).1 :: decodeRecs al rs.length _ = r :: rs
    rw [decodeRec_encodeRec al hal r.1 r.2 hr.1 hr.2]
    have hdrop : (encodeRec al r.1 r.2 ++ (encodePage al rs ++ rest)).drop
        (rsize al r.1.length r.2.length) = encodePage al rs ++ rest := by
      rw [← encodeRec_length al hal r.1 r.2, List.drop_left]
    simp only [hdrop, ih hrs]

theorem encodePage_append (al : Aligns) (xs ys : List (List Nat × List Nat)) :
    encodePage al (xs ++ ys) = encodePage al xs ++ encodePage al ys := by
  simp [encodePage]

theorem encodePage_length_dvd (al : Aligns) (hal : al.OK)
    (rs : List (List Nat × List Nat)) :
    talign al ∣ (encodePage al rs).length := by
  induction rs with
  | nil => simp [encodePage]
  | cons r rs ih =>
    have : encodePage al (r :: rs) = encodeRec al r.1 r.2 ++ encodePage al rs := by
      simp [encodePage]
    rw [this, List.length_append, encodeRec_length al hal]
    exact dvd_add (talign_dvd_rsize al _ _) ih

/-! ## The `KeyValue` machine: representation lemmas -/

theorem sumKey_append (xs ys : List (List Nat × List Nat)) :
    sumKey (xs ++ ys) = sumKey xs + sumKey ys := by
  simp [sumKey]

theorem sumVal_append (xs ys : List (List Nat × List Nat)) :
    sumVal (xs ++ ys) = sumVal xs + sumVal ys := by
  simp [sumVal]

theorem mkPages_last (al : Aligns) (pss : List (List (List Nat × List Nat))) :
    ∀ (off : Nat) (p : Page), (mkPages al pss off).getLast? = some p →
      p.fileoffset + p.filesize = off + filesizeSum al pss := by
  induction pss with
  | nil => intro off p hp; simp [mkPages] at hp
  | cons rs rest ih =>
    intro off p hp
    cases rest with
    | nil =>
      have hpeq : p = pageOf al rs off := by
        simpa [mkPages] using hp.symm
      subst hpeq
      simp [pageOf, filesizeSum]
    | cons rs2 rest2 =>
      have hp2 : (mkPages al (rs2 :: rest2)
          (off + roundup (encodePage al rs).length ALIGNFILE)).getLast?
          = some p := by
        simpa [mkPages, List.getLast?_cons_cons] using hp
      have := ih _ p hp2
      simp only [filesizeSum, List.map_cons, List.sum_cons] at this ⊢
      omega

theorem mkPages_append_one (al : Aligns)
    (pss : List (List (List Nat × List Nat)))
    (cur : List (List Nat × List Nat)) :
    ∀ off, mkPages al (pss ++ [cur]) off
      = mkPages al pss off ++ [pageOf al cur (off + filesizeSum al pss)] := by
  induction pss with
  | nil => intro off; simp [mkPages, filesizeSum]
  | cons rs rest ih =>
    intro off
    simp only [List.cons_append, mkPages, List.append_eq, ih]
    have harith : off + roundup (encodePage al rs).length ALIGNFILE +
        filesizeSum al rest = off + filesizeSum al (rs :: rest) := by
      simp only [filesizeSum, List.map_cons, List.sum_cons]
      omega
    rw [harith]

theorem mkPages_map_nkey (al : Aligns)
    (pss : List (List (List Nat × List Nat))) :
    ∀ off, (mkPages al pss off).map Page.nkey = pss.map List.length := by
  induction pss with
  | nil => intro off; simp [mkPages]
  | cons rs rest ih => intro off; simp [mkPages, pageOf, ih]

theorem mkPages_map_keysize_eq (al : Aligns)
    (pss : List (List (List Nat × List Nat))) :
    ∀ off, (mkPages al pss off).map Page.keysize = pss.map sumKey := by
  induction pss with
  | nil => intro off; simp [mkPages]
  | cons rs rest ih => intro off; simp [mkPages, pageOf, ih]

theorem mkPages_map_valuesize_eq (al : Aligns)
    (pss : List (List (List Nat × List Nat))) :
    ∀ off, (mkPages al pss off).map Page.valuesize = pss.map sumVal := by
  induction pss with
  | nil => intro off; simp [mkPages]
  | cons rs rest ih => intro off; simp [mkPages, pageOf, ih]

theorem mkPages_fileoffset_dvd (al : Aligns)
    (pss : List (List (List Nat × List Nat))) :
    ∀ off, ALIGNFILE ∣ off →
      ∀ p ∈ mkPages al pss off, ALIGNFILE ∣ p.fileoffset := by
  induction pss with
  | nil => intro off hoff p hp; simp [mkPages] at hp
  | cons rs rest ih =>
    intro off hoff p hp
    simp only [mkPages, List.mem_cons] at hp
    rcases hp with hp | hp
    · subst hp; exact hoff
    · exact ih _ (dvd_add hoff (roundup_dvd _ _)) p hp

theorem sum_map_length (pss : List (List (List Nat × List Nat))) :
    (pss.map List.length).sum = (pss.flatten).length := by
  induction pss with
  | nil => simp
  | cons rs rest ih =>
    rw [List.map_cons, List.sum_cons, List.flatten_cons, List.length_append, ih]

theorem sum_map_sumKey (pss : List (List (List Nat × List Nat))) :
    (pss.map sumKey).sum = sumKey (pss.flatten) := by
  induction pss with
  | nil => simp [sumKey]
  | cons rs rest ih =>
    rw [List.flatten_cons, sumKey_append, List.map_cons, List.sum_cons, ih]

theorem sum_map_sumVal (pss : List (List (List Nat × List Nat))) :
    (pss.map sumVal).sum = sumVal (pss.flatten) := by
  induction pss with
  | nil => simp [sumVal]
  | cons rs rest ih =>
    rw [List.flatten_cons, sumVal_append, List.map_cons, List.sum_cons, ih]

/-- Page-by-page decode of packed pages recovers the packed records. -/
theorem zip_decode (al : Aligns) (hal : al.OK)
    (pss : List (List (List Nat × List Nat)))
    (hs : ∀ rs ∈ pss, SmallRecs rs) :
    ∀ off, ((mkPages al pss off).zip (pss.map (encodePage al))).flatMap
        (fun pb => decodeRecs al pb.1.nkey pb.2) = pss.flatten := by
  induction pss with
  | nil => intro off; simp [mkPages]
  | cons rs rest ih =>
    intro off
    have hrs := hs rs (List.mem_cons_self rs rest)
    have hrest : ∀ q ∈ rest, SmallRecs q := fun q hq =>
      hs q (List.mem_cons_of_mem rs hq)
    have hdec : decodeRecs al rs.length (encodePage al rs) = rs := by
      have := decodeRecs_encodePage al hal rs hrs []
      simpa using this
    simp [mkPages, pageOf, ih hrest, hdec]

theorem rep_fresh (al : Aligns) (ps : Nat) : KVRep (freshKV al ps) [] [] := by
  refine ⟨rfl, rfl, rfl, rfl, rfl, rfl, rfl, ?_⟩
  intro r hr
  simp at hr

theorem writeRec_rep (kv : KV) (pss : List (List (List Nat × List Nat)))
    (cur : List (List Nat × List Nat)) (k v : List Nat)
    (hal : kv.al.OK) (hk : k.length < 2147483648)
    (hv : v.length < 2147483648) (h : KVRep kv pss cur) :
    KVRep (kv.writeRec k v) pss (cur ++ [(k, v)]) := by
  have hdvd : talign kv.al ∣ kv.alignsize := by
    rw [h.alignsize_eq]; exact encodePage_length_dvd kv.al hal cur
  have hshift := kvbytesAt_shift kv.al hal kv.alignsize k.length v.length hdvd
  refine ⟨?_, ?_, ?_, ?_, ?_, ?_, ?_, ?_⟩
  · exact h.pages_eq
  · exact h.bytes_eq
  · rw [KV.writeRec, h.mem_eq]
    simp [encodePage_append, encodePage]
  · simp [KV.writeRec, h.nkey_eq]
  · simp [KV.writeRec, h.keysize_eq, sumKey_append, sumKey]
  · simp [KV.writeRec, h.valuesize_eq, sumVal_append, sumVal]
  · show kv.alignsize + kvbytesAt kv.al kv.alignsize k.length v.length
      = (encodePage kv.al (cur ++ [(k, v)])).length
    rw [hshift, h.alignsize_eq, encodePage_append]
    simp [encodePage, encodeRec_length kv.al hal]
  · intro r hr
    simp only [← List.append_assoc, List.mem_append] at hr
    rcases hr with hr | hr
    · exact h.small r (by simpa using hr)
    · simp at hr; subst hr; exact ⟨hk, hv⟩

theorem createPage_rep (kv : KV) (pss : List (List (List Nat × List Nat)))
    (cur : List (List Nat × List Nat)) (h : KVRep kv pss cur) :
    kv.createPage.pages = mkPages kv.al (pss ++ [cur]) 0 ∧
      kv.createPage.pageBytes = (pss ++ [cur]).map (encodePage kv.al) := by
  have hoff : (match kv.pages.getLast? with
      | some p => p.fileoffset + p.filesize
      | none => 0) = filesizeSum kv.al pss := by
    rw [h.pages_eq]
    cases hlast : (mkPages kv.al pss 0).getLast? with
    | none =>
      have hnil : pss = [] := by
        cases pss with
        | nil => rfl
        | cons a l =>
          rw [show mkPages kv.al (a :: l) 0
            = pageOf kv.al a 0
              :: mkPages kv.al l (0 + roundup (encodePage kv.al a).length
                ALIGNFILE) from rfl] at hlast
          exact absurd hlast (by simp)
      subst hnil
      simp [filesizeSum]
    | some p => simpa using mkPages_last kv.al pss 0 p hlast
  constructor
  · simp only [KV.createPage]
    rw [mkPages_append_one, ← h.pages_eq, hoff]
    congr 2
    unfold pageOf
    rw [h.nkey_eq, h.keysize_eq, h.valuesize_eq, h.alignsize_eq]
    simp
  · simp only [KV.createPage]
    rw [h.bytes_eq, h.mem_eq]
    simp

theorem flushPage_rep (kv : KV) (pss : List (List (List Nat × List Nat)))
    (cur : List (List Nat × List Nat)) (h : KVRep kv pss cur) :
    KVRep kv.flushPage (pss ++ [cur]) [] := by
  have h1 : KVRep { kv with fileflag := true } pss cur :=
    { pages_eq := h.pages_eq, bytes_eq := h.bytes_eq, mem_eq := h.mem_eq
      nkey_eq := h.nkey_eq, keysize_eq := h.keysize_eq
      valuesize_eq := h.valuesize_eq, alignsize_eq := h.alignsize_eq
      small := h.small }
  have hcp := createPage_rep _ pss cur h1
  refine ⟨?_, ?_, ?_, ?_, ?_, ?_, ?_, ?_⟩
  · exact hcp.1
  · exact hcp.2
  · show ([] : List Nat) = encodePage kv.al []
    simp [encodePage]
  · rfl
  · show 0 = sumKey []
    simp [sumKey]
  · show 0 = sumVal []
    simp [sumVal]
  · show 0 = (encodePage kv.al []).length
    simp [encodePage]
  · intro r hr
    apply h.small
    simpa using hr

theorem writeRec_al (kv : KV) (k v : List Nat) : (kv.writeRec k v).al = kv.al :=
  rfl

theorem flushPage_al (kv : KV) : kv.flushPage.al = kv.al := rfl

/-- A successful `add` extends the packed contents by exactly the new
record, either into the working page or into a fresh page after a spill. -/
theorem add_rep (kv : KV) (pss : List (List (List Nat × List Nat)))
    (cur : List (List Nat × List Nat)) (k v : List Nat) (kv2 : KV)
    (hal : kv.al.OK) (h : KVRep kv pss cur) (hadd : kv.add k v = .ok kv2) :
    ∃ pss2 cur2, KVRep kv2 pss2 cur2 ∧
      pss2.flatten ++ cur2 = pss.flatten ++ cur ++ [(k, v)] ∧
      kv2.al = kv.al ∧ kv2.pagesize = kv.pagesize := by
  have hdvd : talign kv.al ∣ kv.alignsize := by
    rw [h.alignsize_eq]; exact encodePage_length_dvd kv.al hal cur
  have hshift := kvbytesAt_shift kv.al hal kv.alignsize k.length v.length hdvd
  have hzero := kvbytesAt_zero kv.al hal k.length v.length
  by_cases h31 : 2147483648 ≤ rsize kv.al k.length v.length
  · exfalso
    rw [KV.add, hshift] at hadd
    simp [h31] at hadd
  · have hlow : 8 + k.length + v.length ≤ rsize kv.al k.length v.length := by
      have h1 := kofs_ge kv.al hal
      have h2 := vofs_ge kv.al hal k.length
      have h3 := rsize_ge kv.al k.length v.length
      omega
    have hk : k.length < 2147483648 := by omega
    have hv : v.length < 2147483648 := by omega
    by_cases hfull : kv.pagesize < kv.alignsize + rsize kv.al k.length v.length
        ∨ kv.nkey = INTMAX
    · by_cases hempty : kv.alignsize = 0
      · exfalso
        rw [KV.add, hshift] at hadd
        rw [hempty] at hfull
        simp only [Nat.zero_add] at hfull
        simp [h31, hempty, hfull] at hadd
      · by_cases hbig : kv.pagesize < rsize kv.al k.length v.length
        · exfalso
          rw [KV.add, hshift, hzero] at hadd
          simp [h31, hfull, hempty, hbig] at hadd
        · have heq : kv2 = (kv.flushPage).writeRec k v := by
            rw [KV.add, hshift, hzero] at hadd
            simp [h31, hfull, hempty, hbig] at hadd
            exact hadd.symm
          subst heq
          refine ⟨pss ++ [cur], [(k, v)], ?_, ?_, rfl, rfl⟩
          · have hf := flushPage_rep kv pss cur h
            have hw := writeRec_rep kv.flushPage (pss ++ [cur]) [] k v hal hk hv hf
            simpa using hw
          · simp
    · have heq : kv2 = kv.writeRec k v := by
        rw [KV.add, hshift] at hadd
        simp [h31, hfull] at hadd
        exact hadd.symm
      subst heq
      exact ⟨pss, cur ++ [(k, v)], writeRec_rep kv pss cur k v hal hk hv h,
        by simp, rfl, rfl⟩

/-- A successful sequence of `add`s extends the packed contents by exactly
the added records, in order. -/
theorem addAll_rep (recs : List (List Nat × List Nat)) :
    ∀ (kv : KV) (pss : List (List (List Nat × List Nat)))
      (cur : List (List Nat × List Nat)) (kv2 : KV), kv.al.OK →
      KVRep kv pss cur → kv.addAll recs = .ok kv2 →
      ∃ pss2 cur2, KVRep kv2 pss2 cur2 ∧
        pss2.flatten ++ cur2 = pss.flatten ++ cur ++ recs ∧ kv2.al = kv.al := by
  induction recs with
  | nil =>
    intro kv pss cur kv2 hal h hrun
    rw [KV.addAll] at hrun
    injection hrun with hrun
    subst hrun
    exact ⟨pss, cur, h, by simp, rfl⟩
  | cons r rs ih =>
    intro kv pss cur kv2 hal h hrun
    rw [KV.addAll] at hrun
    cases hstep : kv.add r.1 r.2 with
    | error e => rw [hstep] at hrun; simp at hrun
    | ok kv1 =>
      rw [hstep] at hrun
      simp only at hrun
      obtain ⟨pss1, cur1, h1, hjoin1, hal1, _⟩ :=
        add_rep kv pss cur r.1 r.2 kv1 hal h hstep
      obtain ⟨pss2, cur2, h2, hjoin2, hal2⟩ :=
        ih kv1 pss1 cur1 kv2 (hal1 ▸ hal) h1 hrun
      refine ⟨pss2, cur2, h2, ?_, hal2.trans hal1⟩
      rw [hjoin2, hjoin1]
      simp

/-- `complete` freezes the working page; the container totals become the
sums over all page descriptors and equal the totals of the packed
records, and full iteration recovers exactly those records. -/
theorem complete_rep (kv : KV) (pss : List (List (List Nat × List Nat)))
    (cur : List (List Nat × List Nat)) (hal : kv.al.OK)
    (h : KVRep kv pss cur) :
    kv.complete.readAll = pss.flatten ++ cur ∧
      kv.complete.nkv = (pss.flatten ++ cur).length ∧
      kv.complete.ksize = sumKey (pss.flatten ++ cur) ∧
      kv.complete.vsize = sumVal (pss.flatten ++ cur) ∧
      kv.complete.pages = mkPages kv.al (pss ++ [cur]) 0 := by
  have hcp := createPage_rep kv pss cur h
  have hpages : kv.complete.pages = mkPages kv.al (pss ++ [cur]) 0 := by
    simp only [KV.complete, KV.initPage]
    exact hcp.1
  have hbytes : kv.complete.pageBytes = (pss ++ [cur]).map (encodePage kv.al) := by
    simp only [KV.complete, KV.initPage]
    exact hcp.2
  have hsmall : ∀ rs ∈ pss ++ [cur], SmallRecs rs := by
    intro rs hrs r hr
    apply h.small
    rcases List.mem_append.mp hrs with hin | hin
    · exact List.mem_append.mpr (Or.inl (List.mem_flatten.mpr ⟨rs, hin, hr⟩))
    · simp at hin
      subst hin
      exact List.mem_append.mpr (Or.inr hr)
  have hflat : (pss ++ [cur]).flatten = pss.flatten ++ cur := by simp
  refine ⟨?_, ?_, ?_, ?_, hpages⟩
  · rw [KV.readAll, hpages, hbytes]
    have := zip_decode kv.al hal (pss ++ [cur]) hsmall 0
    rw [show kv.complete.al = kv.al from rfl, this, hflat]
  · show (kv.complete.pages.map Page.nkey).sum = _
    rw [hpages, mkPages_map_nkey, sum_map_length, hflat]
  · show (kv.complete.pages.map Page.keysize).sum = _
    rw [hpages, mkPages_map_keysize_eq, sum_map_sumKey, hflat]
  · show (kv.complete.pages.map Page.valuesize).sum = _
    rw [hpages, mkPages_map_valuesize_eq, sum_map_sumVal, hflat]

/-! ## Claim C1: packing round trip -/

/-- C1.  Packing round-trip: for every sequence of `KeyValue::add` calls
that all succeed, followed by `complete()` and a full page-by-page
iteration via `request_info`/`request_page`, the records read back are
exactly the key and value byte ranges that were added, in insertion
order, and the totals `nkv`, `ksize`, `vsize` equal the record count and
the summed key and value lengths. -/
theorem packing_roundtrip (al : Aligns) (ps : Nat) (hal : al.OK)
    (recs : List (List Nat × List Nat)) (kv2 : KV)
    (hrun : (freshKV al ps).addAll recs = .ok kv2) :
    kv2.complete.readAll = recs ∧
      kv2.complete.nkv = recs.length ∧
      kv2.complete.ksize = sumKey recs ∧
      kv2.complete.vsize = sumVal recs := by
  obtain ⟨pss, cur, hrep, hjoin, halq⟩ :=
    addAll_rep recs (freshKV al ps) [] [] kv2 hal (rep_fresh al ps) hrun
  have hal2 : kv2.al.OK := by
    rw [show kv2.al = al from halq]; exact hal
  have hc := complete_rep kv2 pss cur hal2 hrep
  have hjoin2 : pss.flatten ++ cur = recs := by simpa using hjoin
  rw [hjoin2] at hc
  exact ⟨hc.1, hc.2.1, hc.2.2.1, hc.2.2.2.1⟩

/-- Witness for C1 at a concrete run. -/
theorem packing_roundtrip_witness :
    (freshKV ⟨4, 4⟩ 64).addAll [([1], [2, 3])] = .ok
      { al := ⟨4, 4⟩, pagesize := 64, pages := [], pageBytes := []
        mem := [1, 0, 0, 0, 2, 0, 0, 0, 1, 0, 0, 0, 2, 3, 0, 0]
        nkey := 1, keysize := 1, valuesize := 2, alignsize := 16
        nkv := 0, ksize := 0, vsize := 0, tsize := 0, fileflag := false } ∧
    ({ al := ⟨4, 4⟩, pagesize := 64, pages := [], pageBytes := []
       mem := [1, 0, 0, 0, 2, 0, 0, 0, 1, 0, 0, 0, 2, 3, 0, 0]
       nkey := 1, keysize := 1, valuesize := 2, alignsize := 16
       nkv := 0, ksize := 0, vsize := 0, tsize := 0,
       fileflag := false } : KV).complete.readAll = [([1], [2, 3])] :=
  ⟨rfl,
   (packing_roundtrip ⟨4, 4⟩ 64 ⟨⟨2, rfl⟩, ⟨2, rfl⟩⟩ [([1], [2, 3])] _
     rfl).1⟩

/-! ## Claim C3: oversize-record error behaviour of `add` -/

/-- C3.  On any container state satisfying the state invariants of the
`add` path (record-aligned working-page offset, zero records when the
page is empty), a single `add` fails with the page-oversize error iff the
record's aligned packed size exceeds the page size; when the record fits
the page size but not the current page (or the page already holds
`INT32_MAX` records) the page is flushed, a descriptor is appended, the
page is reinitialised and the re-attempted add succeeds; otherwise the
add succeeds in place.  In particular a record of exactly `page_size`
packed bytes succeeds and one byte larger aborts. -/
theorem add_oversize_iff (kv : KV) (k v : List Nat) (hal : kv.al.OK)
    (hdvd : talign kv.al ∣ kv.alignsize)
    (hn0 : kv.alignsize = 0 → kv.nkey = 0)
    (h31 : rsize kv.al k.length v.length < 2147483648) :
    (kv.add k v = .error .pageSize ↔
      kv.pagesize < rsize kv.al k.length v.length) ∧
    (rsize kv.al k.length v.length ≤ kv.pagesize →
      (kv.pagesize < kv.alignsize + rsize kv.al k.length v.length ∨
        kv.nkey = INTMAX) →
      kv.add k v = .ok ((kv.flushPage).writeRec k v)) ∧
    (kv.alignsize + rsize kv.al k.length v.length ≤ kv.pagesize →
      kv.nkey ≠ INTMAX →
      kv.add k v = .ok (kv.writeRec k v)) := by
  have hshift := kvbytesAt_shift kv.al hal kv.alignsize k.length v.length hdvd
  have hzero := kvbytesAt_zero kv.al hal k.length v.length
  have h31n : ¬ 2147483648 ≤ rsize kv.al k.length v.length := by omega
  refine ⟨⟨?_, ?_⟩, ?_, ?_⟩
  · intro herr
    by_contra hle
    push_neg at hle
    by_cases hfull : kv.pagesize < kv.alignsize + rsize kv.al k.length v.length
        ∨ kv.nkey = INTMAX
    · by_cases hempty : kv.alignsize = 0
      · have hk0 := hn0 hempty
        rw [hempty] at hfull
        rw [hk0] at hfull
        simp only [Nat.zero_add] at hfull
        rcases hfull with hfull | hfull
        · omega
        · exact absurd hfull (by decide)
      · rw [KV.add, hshift, hzero] at herr
        simp [h31n, hfull, hempty, Nat.not_lt.mpr hle] at herr
    · rw [KV.add, hshift] at herr
      simp [h31n, hfull] at herr
  · intro hgt
    have hfull : kv.pagesize < kv.alignsize + rsize kv.al k.length v.length
        ∨ kv.nkey = INTMAX := Or.inl (by omega)
    by_cases hempty : kv.alignsize = 0
    · rw [KV.add, hshift]
      rw [hempty] at hfull ⊢
      simp only [Nat.zero_add] at hfull ⊢
      simp [h31n, hfull]
    · rw [KV.add, hshift, hzero]
      simp [h31n, hfull, hempty, hgt]
  · intro hle hfull
    have hempty : kv.alignsize ≠ 0 := by
      intro h0
      have hk0 := hn0 h0
      rw [h0] at hfull
      simp only [Nat.zero_add] at hfull
      rcases hfull with hfull | hfull
      · omega
      · rw [hk0] at hfull; exact absurd hfull (by decide)
    rw [KV.add, hshift, hzero]
    simp [h31n, hfull, hempty, Nat.not_lt.mpr hle]
  · intro hle hn
    have hfull : ¬ (kv.pagesize < kv.alignsize + rsize kv.al k.length v.length
        ∨ kv.nkey = INTMAX) := by
      push_neg
      exact ⟨hle, hn⟩
    rw [KV.add, hshift]
    simp [h31n, hfull]

/-- Witness for C3: on a fresh container with `page_size = 16`, a record
of exactly 16 packed bytes succeeds in place, and one whose packed size
is 20 > 16 aborts with the oversize error. -/
theorem add_oversize_iff_witness :
    (freshKV ⟨4, 4⟩ 16).add [1, 2, 3, 4] [1, 2, 3, 4]
      = .ok ((freshKV ⟨4, 4⟩ 16).writeRec [1, 2, 3, 4] [1, 2, 3, 4]) ∧
    (freshKV ⟨4, 4⟩ 16).add [1, 2, 3, 4, 5] [1, 2, 3, 4]
      = .error .pageSize :=
  ⟨(add_oversize_iff (freshKV ⟨4, 4⟩ 16) [1, 2, 3, 4] [1, 2, 3, 4]
      ⟨⟨2, rfl⟩, ⟨2, rfl⟩⟩ (by decide) (fun _ => rfl) (by decide)).2.2
      (by decide) (by decide),
   (add_oversize_iff (freshKV ⟨4, 4⟩ 16) [1, 2, 3, 4, 5] [1, 2, 3, 4]
      ⟨⟨2, rfl⟩, ⟨2, rfl⟩⟩ (by decide) (fun _ => rfl) (by decide)).1.mpr
      (by decide)⟩

/-! ## Claim C4: alignment invariant -/

theorem walkOffsets_aligned (al : Aligns) :
    ∀ (n base : Nat) (bs : List Nat), talign al ∣ base →
      ∀ o ∈ walkOffsets al n base bs,
        talign al ∣ o.1 ∧ al.kalign ∣ o.2.1 ∧ al.valign ∣ o.2.2 := by
  intro n
  induction n with
  | zero => intro base bs hb o ho; simp [walkOffsets] at ho
  | succ m ih =>
    intro base bs hb o ho
    simp only [walkOffsets, List.mem_cons] at ho
    rcases ho with ho | ho
    · subst ho
      exact ⟨hb, roundup_dvd _ _, roundup_dvd _ _⟩
    · exact ih _ _ (roundup_dvd _ _) o ho

/-- C4.  Alignment invariant: after `complete()` on any container built by
a sequence of successful `add`s, every record start offset reached by page
iteration is `talign`-aligned where `talign = max(kalign, valign,
sizeof(int32))`, every key offset is `kalign`-aligned, every value offset
is `valign`-aligned, and every page's file offset is a multiple of the
512-byte file-alignment unit. -/
theorem alignment_invariant (al : Aligns) (ps : Nat) (hal : al.OK)
    (recs : List (List Nat × List Nat)) (kv2 : KV)
    (hrun : (freshKV al ps).addAll recs = .ok kv2) :
    talign al = max (max al.kalign al.valign) 4 ∧
    (∀ o ∈ kv2.complete.iterOffsets,
      talign al ∣ o.1 ∧ al.kalign ∣ o.2.1 ∧ al.valign ∣ o.2.2) ∧
    (∀ p ∈ kv2.complete.pages, ALIGNFILE ∣ p.fileoffset) := by
  obtain ⟨pss, cur, hrep, hjoin, halq⟩ :=
    addAll_rep recs (freshKV al ps) [] [] kv2 hal (rep_fresh al ps) hrun
  have hal2 : kv2.al.OK := by
    rw [show kv2.al = al from halq]; exact hal
  have hc := complete_rep kv2 pss cur hal2 hrep
  refine ⟨rfl, ?_, ?_⟩
  · intro o ho
    rw [KV.iterOffsets] at ho
    simp only [List.mem_flatMap] at ho
    obtain ⟨pb, _, hpb⟩ := ho
    have := walkOffsets_aligned kv2.al pb.1.nkey 0 pb.2 (dvd_zero _) o
      (by simpa [show kv2.complete.al = kv2.al from rfl] using hpb)
    rw [show kv2.al = al from halq] at this
    exact this
  · intro p hp
    rw [hc.2.2.2.2] at hp
    exact mkPages_fileoffset_dvd kv2.al (pss ++ [cur]) 0 (dvd_zero _) p hp

/-- Witness for C4 at a concrete two-page run. -/
theorem alignment_invariant_witness :
    (freshKV ⟨4, 4⟩ 32).addAll [([1], [2]), ([3], [4]), ([5], [6])] = .ok
      { al := ⟨4, 4⟩, pagesize := 32,
        pages := [{ nkey := 2, keysize := 2, valuesize := 2, exactsize := 20,
                    alignsize := 32, filesize := 512, fileoffset := 0 }],
        pageBytes := [[1, 0, 0, 0, 1, 0, 0, 0, 1, 0, 0, 0, 2, 0, 0, 0,
                       1, 0, 0, 0, 1, 0, 0, 0, 3, 0, 0, 0, 4, 0, 0, 0]],
        mem := [1, 0, 0, 0, 1, 0, 0, 0, 5, 0, 0, 0, 6, 0, 0, 0],
        nkey := 1, keysize := 1, valuesize := 1, alignsize := 16,
        nkv := 0, ksize := 0, vsize := 0, tsize := 0, fileflag := true } ∧
    (∀ p ∈ (KV.mk ⟨4, 4⟩ 32 [Page.mk 2 2 2 20 32 512 0]
        [[1, 0, 0, 0, 1, 0, 0, 0, 1, 0, 0, 0, 2, 0, 0, 0,
          1, 0, 0, 0, 1, 0, 0, 0, 3, 0, 0, 0, 4, 0, 0, 0]]
        [1, 0, 0, 0, 1, 0, 0, 0, 5, 0, 0, 0, 6, 0, 0, 0]
        1 1 1 16 0 0 0 0 true).complete.pages,
      ALIGNFILE ∣ p.fileoffset) :=
  ⟨rfl,
   (alignment_invariant ⟨4, 4⟩ 32 ⟨⟨2, rfl⟩, ⟨2, rfl⟩⟩
     [([1], [2]), ([3], [4]), ([5], [6])] _ rfl).2.2⟩

/-! ## Claim C6: `complete` on an empty container (corrected) -/

/-- C6 counterexample: `complete()` on a container to which nothing was
ever added yields one (empty) page descriptor, not zero pages, at the
concrete instance `kalign = valign = 4`, `page_size = 64`. -/
theorem complete_empty_counterexample :
    ¬ ((freshKV ⟨4, 4⟩ 64).complete.pages.length = 0) ∧
    (freshKV ⟨4, 4⟩ 64).complete.pages.length = 1 := by
  decide

/-- C6 amended: `complete()` on a container with no records produces
exactly one page descriptor, with zero records, zero sizes and zero file
offset; all container totals are zero and no spill file exists. -/
theorem complete_empty_amended (al : Aligns) (ps : Nat) :
    (freshKV al ps).complete.pages
        = [{ nkey := 0, keysize := 0, valuesize := 0, exactsize := 0
             alignsize := 0, filesize := 0, fileoffset := 0 }] ∧
    (freshKV al ps).complete.nkv = 0 ∧
    (freshKV al ps).complete.ksize = 0 ∧
    (freshKV al ps).complete.vsize = 0 ∧
    (freshKV al ps).complete.tsize = 0 ∧
    (freshKV al ps).complete.fileflag = false :=
  ⟨rfl, rfl, rfl, rfl, rfl, rfl⟩

/-! ## Claim C7: precondition errors (corrected) -/

/-- C7 counterexample: `map` with `mapstyle = 7` on a single-rank group
does not raise the fatal bad-mapstyle error: with `nprocs == 1` the task
loop at mapreduce.cpp:770-772 runs before the mapstyle dispatch is ever
consulted, so the `else error->all("Invalid mapstyle setting")` branch is
unreachable. -/
theorem precondition_errors_counterexample :
    (MRState.mapOp (fun t => [([t], [t])]) 1 false
      { nprocs := 1, mapstyle := 7, verbosity := 0, timer := 0,
        kv := none, kmv := none }).isOk = true := by
  decide

/-- C7 amended: every driver operator invoked in a state violating its
precondition raises a fatal error — convert, aggregate, collapse, clone,
collate, compress, gather, sort_keys and sort_values without a live KV,
reduce and sort_multivalues without a live KMV, add when either engine
lacks a KV or when the engine is added to itself — and `map` with a
`mapstyle` other than 0, 1 or 2 raises the fatal error precisely when
more than one rank reaches the task dispatch (with a single rank the
mapstyle is never consulted). -/
theorem precondition_errors_amended :
    (∀ st : MRState, st.kv = none →
      (∀ h, MRState.aggregateOp h st
          = .error "Cannot aggregate without KeyValue") ∧
      st.convertOp = .error "Cannot convert without KeyValue" ∧
      (∀ h, MRState.collateOp h st = .error "Cannot collate without KeyValue") ∧
      st.cloneOp = .error "Cannot clone without KeyValue" ∧
      (∀ k, MRState.collapseOp k st
          = .error "Cannot collapse without KeyValue") ∧
      (∀ g, MRState.compressOp g st
          = .error "Cannot compress without KeyValue") ∧
      (∀ q, MRState.gatherOp q st = .error "Cannot gather without KeyValue") ∧
      (∀ c, MRState.sortKeysOp c st
          = .error "Cannot sort_keys without KeyValue") ∧
      (∀ c, MRState.sortValuesOp c st
          = .error "Cannot sort_values without KeyValue") ∧
      (∀ other self, st.addOp other self
          = .error "Cannot add without KeyValue")) ∧
    (∀ st : MRState, st.kmv = none →
      (∀ g, MRState.reduceOp g st
          = .error "Cannot reduce without KeyMultiValue") ∧
      (∀ c, MRState.sortMultivaluesOp c st
          = .error "Cannot sort_multivalues without KeyMultiValue")) ∧
    (∀ st : MRState, ∀ kvs, st.kv = some kvs →
      st.addOp none false
          = .error "MapReduce passed to add() does not have KeyValue pairs" ∧
      (∀ other, st.addOp (some other) true = .error "Cannot add to self")) ∧
    (∀ st : MRState, 2 ≤ st.nprocs → st.mapstyle ≠ 0 → st.mapstyle ≠ 1 →
      st.mapstyle ≠ 2 → ∀ gen nmap addflag,
        MRState.mapOp gen nmap addflag st
          = .error "Invalid mapstyle setting") := by
  refine ⟨?_, ?_, ?_, ?_⟩
  · intro st hkv
    refine ⟨?_, ?_, ?_, ?_, ?_, ?_, ?_, ?_, ?_, ?_⟩ <;>
      · intros
        simp [MRState.aggregateOp, MRState.collateOp, MRState.convertOp,
          MRState.cloneOp, MRState.collapseOp, MRState.compressOp,
          MRState.gatherOp, MRState.sortKeysOp, MRState.sortValuesOp,
          MRState.addOp, hkv]
  · intro st hkmv
    exact ⟨fun g => by simp [MRState.reduceOp, hkmv],
           fun c => by simp [MRState.sortMultivaluesOp, hkmv]⟩
  · intro st kvs hkv
    exact ⟨by simp [MRState.addOp, hkv],
           fun other => by simp [MRState.addOp, hkv]⟩
  · intro st hp h0 h1 h2 gen nmap addflag
    have hne : st.nprocs ≠ 1 := by omega
    simp [MRState.mapOp, hne, h0, h1, h2]

/-- Witness for C7 at concrete states. -/
theorem precondition_errors_witness :
    MRState.convertOp
      { nprocs := 1, mapstyle := 0, verbosity := 0, timer := 0,
        kv := none, kmv := none } = .error "Cannot convert without KeyValue" ∧
    MRState.reduceOp (fun _ => [])
      { nprocs := 1, mapstyle := 0, verbosity := 0, timer := 0,
        kv := some [[]], kmv := none }
      = .error "Cannot reduce without KeyMultiValue" ∧
    MRState.addOp
      { nprocs := 1, mapstyle := 0, verbosity := 0, timer := 0,
        kv := some [[]], kmv := none } (some [[]]) true
      = .error "Cannot add to self" ∧
    MRState.mapOp (fun t => [([t], [t])]) 1 false
      { nprocs := 2, mapstyle := 7, verbosity := 0, timer := 0,
        kv := none, kmv := none } = .error "Invalid mapstyle setting" :=
  ⟨(precondition_errors_amended.1 _ rfl).2.1,
   (precondition_errors_amended.2.1 _ rfl).1 _,
   ((precondition_errors_amended.2.2.1 _ [[]] rfl).2 _),
   precondition_errors_amended.2.2.2 _ (by decide) (by decide) (by decide)
     (by decide) _ 1 false⟩

/-! ## Claim C9: operator return value (corrected) -/

/-- C9 counterexample: on a two-rank group whose ranks each hold `2^30`
records, `clone` returns the `MPI_INT` collective sum `-2^31`, not a
`uint64` total: the true record total is `2^31` and the returned value is
negative, so the two differ. -/
theorem operator_return_counterexample :
    (MRState.cloneOp
      { nprocs := 2, mapstyle := 0, verbosity := 0, timer := 0,
        kv := some [List.replicate 1073741824 ([1], [2]),
                    List.replicate 1073741824 ([1], [2])],
        kmv := none }).map Prod.snd = .ok (-2147483648) ∧
    (kvCounts [List.replicate 1073741824 (([1], [2]) : KVPair),
               List.replicate 1073741824 (([1], [2]) : KVPair)]).sum
      = 2147483648 ∧
    (-2147483648 : Int) ≠ ((2147483648 : Nat) : Int) := by
  refine ⟨?_, ?_, by norm_num⟩
  · simp only [MRState.cloneOp, cloneRun, kmvCounts, allreduceSumInt,
      List.map_cons, List.map_nil, List.length_map,
      List.length_replicate, List.sum_cons, List.sum_nil, Except.map]
    norm_num [toInt32]
  · rw [kvCounts, List.map_cons, List.map_cons, List.map_nil]
    norm_num

/-- C9 amended: every driver operator returns the `MPI_INT` collective
sum of the per-rank record counts of the resulting container, i.e. the
total record count reduced into a 32-bit signed `int`; this equals the
true total exactly when the total is below `2^31`. -/
theorem operator_return_amended (counts : List Nat)
    (h : counts.sum < 2147483648) :
    allreduceSumInt counts = (counts.sum : Int) := by
  have h2 : counts.sum % 4294967296 = counts.sum :=
    Nat.mod_eq_of_lt (by omega)
  simp [allreduceSumInt, toInt32, h2, h]

/-- Witness for C9 at concrete counts. -/
theorem operator_return_amended_witness :
    [(1 : Nat), 2, 3].sum < 2147483648 ∧
      allreduceSumInt [1, 2, 3] = ((6 : Nat) : Int) :=
  ⟨by decide, operator_return_amended [1, 2, 3] (by decide)⟩

/-! ## Claim C10: sort_multivalues aborts on block-split records -/

theorem sortMVPage_error (cmp : List Nat → List Nat → Int) :
    ∀ page : List KMVRec,
      (∃ r ∈ page, r.isBlock = true) →
      sortMVPage cmp page
        = .error "Cannot yet sort multivalues for a multiple block KeyMultiValue" := by
  intro page
  induction page with
  | nil => intro h; simp at h
  | cons r rs ih =>
    intro h
    cases r with
    | blockSplit k bs => simp [sortMVPage, sortMVRec]
    | inline k vs =>
      have hex : ∃ q ∈ rs, KMVRec.isBlock q = true := by
        rcases h with ⟨q, hq, hblock⟩
        rcases List.mem_cons.mp hq with heq | hmem
        · subst heq; simp [KMVRec.isBlock] at hblock
        · exact ⟨q, hmem, hblock⟩
      rw [sortMVPage, ih hex]
      simp [sortMVRec]

theorem sortMVPage_ok (cmp : List Nat → List Nat → Int) :
    ∀ page : List KMVRec,
      (∀ r ∈ page, r.isBlock = false) →
      ∃ out, sortMVPage cmp page = .ok out := by
  intro page
  induction page with
  | nil => intro h; exact ⟨[], rfl⟩
  | cons r rs ih =>
    intro h
    obtain ⟨out, hout⟩ := ih fun q hq => h q (List.mem_cons_of_mem r hq)
    cases r with
    | inline k vs =>
      refine ⟨KMVRec.inline k
        (List.insertionSort (fun a b => cmp a b ≤ 0) vs) :: out, ?_⟩
      simp [sortMVPage, sortMVRec, hout]
    | blockSplit k bs =>
      have := h _ (List.mem_cons_self _ _)
      simp [KMVRec.isBlock] at this

theorem sortMVRun_error (cmp : List Nat → List Nat → Int) :
    ∀ pages : List (List KMVRec),
      (∃ page ∈ pages, ∃ r ∈ page, r.isBlock = true) →
      sortMVRun cmp pages
        = .error "Cannot yet sort multivalues for a multiple block KeyMultiValue" := by
  intro pages
  induction pages with
  | nil => intro h; simp at h
  | cons p ps ih =>
    intro h
    by_cases hexp : ∃ r ∈ p, KMVRec.isBlock r = true
    · rw [sortMVRun, sortMVPage_error cmp p hexp]
    · have hall : ∀ r ∈ p, r.isBlock = false := by
        intro r hr
        by_contra hb
        exact hexp ⟨r, hr, by
          cases hib : r.isBlock
          · exact absurd hib hb
          · rfl⟩
      obtain ⟨out, hout⟩ := sortMVPage_ok cmp p hall
      have hrest : ∃ page ∈ ps, ∃ r ∈ page, KMVRec.isBlock r = true := by
        rcases h with ⟨page, hpage, q, hq, hblk⟩
        rcases List.mem_cons.mp hpage with heq | hmem
        · subst heq; exact absurd ⟨q, hq, hblk⟩ hexp
        · exact ⟨page, hmem, q, hq, hblk⟩
      rw [sortMVRun, hout, ih hrest]

theorem sortMVRun_ok (cmp : List Nat → List Nat → Int) :
    ∀ pages : List (List KMVRec),
      (∀ page ∈ pages, ∀ r ∈ page, r.isBlock = false) →
      ∃ out, sortMVRun cmp pages = .ok out := by
  intro pages
  induction pages with
  | nil => intro h; exact ⟨[], rfl⟩
  | cons p ps ih =>
    intro h
    obtain ⟨out, hout⟩ := ih fun q hq => h q (List.mem_cons_of_mem p hq)
    obtain ⟨p1, hp1⟩ := sortMVPage_ok cmp p (h p (List.mem_cons_self p ps))
    refine ⟨p1 :: out, ?_⟩
    rw [sortMVRun, hp1, hout]

/-- C10.  `sort_multivalues` aborts with the fatal error "Cannot yet sort
multivalues for a multiple block KeyMultiValue" as soon as the current
KMV contains any block-split record (stored `nvalues` negative); it never
sorts or rewrites such a record.  Conversely a KMV with no block-split
record is fully sorted and rewritten. -/
theorem sort_multivalues_block_abort (cmp : List Nat → List Nat → Int)
    (pages : List (List KMVRec)) :
    ((∃ page ∈ pages, ∃ r ∈ page, r.isBlock = true) →
      sortMVRun cmp pages
        = .error "Cannot yet sort multivalues for a multiple block KeyMultiValue") ∧
    ((∀ page ∈ pages, ∀ r ∈ page, r.isBlock = false) →
      ∃ out, sortMVRun cmp pages = .ok out) :=
  ⟨sortMVRun_error cmp pages, sortMVRun_ok cmp pages⟩

/-- Witness for C10: one inline record then a block-split record aborts;
inline-only input succeeds. -/
theorem sort_multivalues_block_abort_witness :
    sortMVRun (fun _ _ => 0)
        [[KMVRec.inline [1] [[2]], KMVRec.blockSplit [3] [[[4]]]]]
      = .error "Cannot yet sort multivalues for a multiple block KeyMultiValue" ∧
    sortMVRun (fun _ _ => 0) [[KMVRec.inline [1] [[2]]]]
      = .ok [[KMVRec.inline [1] [[2]]]] :=
  ⟨(sort_multivalues_block_abort (fun _ _ => 0) _).1
     ⟨[KMVRec.inline [1] [[2]], KMVRec.blockSplit [3] [[[4]]]], by simp,
      KMVRec.blockSplit [3] [[[4]]], by simp, rfl⟩,
   rfl⟩

/-! ## Claim C2: collate = aggregate then convert -/

theorem aggregateOp_eq (h : List Nat → Nat) (st : MRState)
    (kvs : List (List KVPair)) (hkv : st.kv = some kvs) :
    st.aggregateOp h
      = .ok ({ st with kv := some (aggregateRun h st.nprocs kvs) },
        allreduceSumInt (kvCounts (aggregateRun h st.nprocs kvs))) := by
  obtain ⟨np, ms, vb, tm, kvf, kmvf⟩ := st
  simp only at hkv
  subst hkv
  unfold MRState.aggregateOp
  by_cases hp : np = 1
  · subst hp
    simp [aggregateRun]
  · simp [hp]

theorem convertOp_eq (st : MRState) (kvs : List (List KVPair))
    (hkv : st.kv = some kvs) :
    st.convertOp
      = .ok ({ st with kv := none, kmv := some (kvs.map convertRun) },
        allreduceSumInt (kmvCounts (kvs.map convertRun))) := by
  obtain ⟨np, ms, vb, tm, kvf, kmvf⟩ := st
  simp only at hkv
  subst hkv
  rfl

theorem collateOp_eq (h : List Nat → Nat) (st : MRState)
    (kvs : List (List KVPair)) (hkv : st.kv = some kvs) :
    st.collateOp h
      = .ok ({ st with
                 kv := none,
                 kmv := some ((aggregateRun h st.nprocs kvs).map convertRun) },
        allreduceSumInt
          (kmvCounts ((aggregateRun h st.nprocs kvs).map convertRun))) := by
  obtain ⟨np, ms, vb, tm, kvf, kmvf⟩ := st
  simp only at hkv
  subst hkv
  by_cases hp : np = 1
  · subst hp
    rfl
  · simp [MRState.collateOp, MRState.aggregateOp, MRState.convertOp,
      aggregateRun, hp]

/-- C2.  For every driver state with a live KV and every hash function,
the KMV produced by `collate(hash)` is record-for-record equal — as a
multiset of `(key, multiset-of-values)` pairs per rank — to the KMV
produced by running `aggregate(hash)` and then `convert()` from the same
starting state. -/
theorem collate_eq_aggregate_convert (h : List Nat → Nat) (st : MRState)
    (stC stA stAC : MRState) (nC nA nAC : Int)
    (hC : st.collateOp h = .ok (stC, nC))
    (hA : st.aggregateOp h = .ok (stA, nA))
    (hAC : stA.convertOp = .ok (stAC, nAC)) :
    stC.kmv.map (fun ks => ks.map kmvAbstract)
      = stAC.kmv.map (fun ks => ks.map kmvAbstract) := by
  cases hkv : st.kv with
  | none =>
    unfold MRState.collateOp at hC
    rw [hkv] at hC
    simp at hC
  | some kvs =>
    rw [collateOp_eq h st kvs hkv] at hC
    rw [aggregateOp_eq h st kvs hkv] at hA
    injection hC with hC'
    injection hA with hA'
    have hstA : stA = { st with kv := some (aggregateRun h st.nprocs kvs) } :=
      (congrArg Prod.fst hA').symm
    rw [hstA] at hAC
    rw [convertOp_eq _ (aggregateRun h st.nprocs kvs) rfl] at hAC
    injection hAC with hAC'
    have h1 : stC = { st with
                        kv := none,
                        kmv := some ((aggregateRun h st.nprocs kvs).map
                          convertRun) } :=
      (congrArg Prod.fst hC').symm
    have h2 : stAC = { { st with kv := some (aggregateRun h st.nprocs kvs) }
                         with
                         kv := none,
                         kmv := some ((aggregateRun h st.nprocs kvs).map
                           convertRun) } :=
      (congrArg Prod.fst hAC').symm
    rw [h1, h2]

/-- Witness for C2 at a concrete two-rank state. -/
theorem collate_eq_aggregate_convert_witness :
    (MRState.mk 2 0 1 1 (some [[([1], [10]), ([2], [20])], [([1], [30])]])
        none).collateOp (fun k => k.sum)
      = .ok (MRState.mk 2 0 1 1 none
          (some [[[KMVRec.inline [2] [[20]]]],
                 [[KMVRec.inline [1] [[10], [30]]]]]), 2) ∧
    (MRState.mk 2 0 1 1 (some [[([1], [10]), ([2], [20])], [([1], [30])]])
        none).aggregateOp (fun k => k.sum)
      = .ok (MRState.mk 2 0 1 1
          (some [[([2], [20])], [([1], [10]), ([1], [30])]]) none, 3) ∧
    (MRState.mk 2 0 1 1
        (some [[([2], [20])], [([1], [10]), ([1], [30])]]) none).convertOp
      = .ok (MRState.mk 2 0 1 1 none
          (some [[[KMVRec.inline [2] [[20]]]],
                 [[KMVRec.inline [1] [[10], [30]]]]]), 2) ∧
    (MRState.mk 2 0 1 1 none
        (some [[[KMVRec.inline [2] [[20]]]],
               [[KMVRec.inline [1] [[10], [30]]]]])).kmv.map
        (fun ks => ks.map kmvAbstract)
      = (MRState.mk 2 0 1 1 none
          (some [[[KMVRec.inline [2] [[20]]]],
                 [[KMVRec.inline [1] [[10], [30]]]]])).kmv.map
          (fun ks => ks.map kmvAbstract) :=
  ⟨rfl, rfl, rfl,
   collate_eq_aggregate_convert (fun k => k.sum)
     (MRState.mk 2 0 1 1 (some [[([1], [10]), ([2], [20])], [([1], [30])]])
       none)
     (MRState.mk 2 0 1 1 none
       (some [[[KMVRec.inline [2] [[20]]]],
              [[KMVRec.inline [1] [[10], [30]]]]]))
     (MRState.mk 2 0 1 1
       (some [[([2], [20])], [([1], [10]), ([1], [30])]]) none)
     (MRState.mk 2 0 1 1 none
       (some [[[KMVRec.inline [2] [[20]]]],
              [[KMVRec.inline [1] [[10], [30]]]]]))
     2 3 2 rfl rfl rfl⟩

/-! ## Claim C8: map task assignment -/

theorem strideAux_mem (p n : Nat) :
    ∀ (fuel start t : Nat), n ≤ start + fuel * p →
      (t ∈ strideAux p n fuel start ↔
        start ≤ t ∧ t < n ∧ ∃ i, t = start + i * p) := by
  intro fuel
  induction fuel with
  | zero =>
    intro start t hle
    simp only [strideAux, List.not_mem_nil, false_iff]
    rintro ⟨h1, h2, _⟩
    omega
  | succ m ih =>
    intro start t hle
    rw [strideAux]
    by_cases hlt : start < n
    · rw [if_pos hlt]
      simp only [List.mem_cons]
      have hle2 : n ≤ start + p + m * p := by
        have harith : start + (m + 1) * p = start + p + m * p := by ring
        omega
      rw [ih (start + p) t hle2]
      constructor
      · rintro (rfl | ⟨h1, h2, i, rfl⟩)
        · exact ⟨le_refl _, hlt, 0, by ring⟩
        · exact ⟨by omega, h2, i + 1, by ring⟩
      · rintro ⟨h1, h2, i, rfl⟩
        cases i with
        | zero => left; ring
        | succ j =>
          right
          refine ⟨?_, h2, j, by ring⟩
          have harith : (j + 1) * p = p + j * p := by ring
          omega
    · rw [if_neg hlt]
      simp only [List.not_mem_nil, false_iff]
      rintro ⟨h1, h2, _⟩
      omega

theorem chunkTasks_join (p n : Nat) :
    ∀ k, k ≤ p → (List.range k).flatMap (fun r => chunkTasks p n r)
      = List.range (k * n / p) := by
  intro k
  induction k with
  | zero => intro _; simp
  | succ m ih =>
    intro hk
    rw [List.range_succ, List.flatMap_append, ih (by omega)]
    simp only [List.flatMap_cons, List.flatMap_nil, List.append_nil]
    rw [chunkTasks]
    have hle : m * n / p ≤ (m + 1) * n / p :=
      Nat.div_le_div_right (Nat.mul_le_mul_right n (by omega))
    have harith : (m + 1) * n / p
        = m * n / p + ((m + 1) * n / p - m * n / p) := by omega
    conv_rhs => rw [harith, List.range_add]

/-- C8.  Task assignment of `map(nmap, fn)`: with `mapstyle 0` and
`nprocs ≥ 1`, the concatenation over all ranks of the assigned tasks is
exactly `0, 1, ..., nmap-1` — every task is executed exactly once across
the group — and rank `r` executes the contiguous range
`[r*nmap/nprocs, (r+1)*nmap/nprocs)` under integer division; with
`mapstyle 1`, rank `r` executes exactly the task indices below `nmap`
congruent to `r` modulo `nprocs`. -/
theorem map_task_assignment (p n : Nat) (hp : 0 < p) :
    ((List.range p).flatMap (fun r => rankTasks 0 p n r) = List.range n) ∧
    (∀ r, r < p → rankTasks 0 p n r
        = (List.range ((r + 1) * n / p - r * n / p)).map
            fun i => r * n / p + i) ∧
    (∀ r, r < p → ∀ t, t ∈ rankTasks 1 p n r ↔ t < n ∧ t % p = r) := by
  refine ⟨?_, ?_, ?_⟩
  · by_cases hp1 : p = 1
    · subst hp1
      rw [show List.range 1 = [0] from rfl]
      simp [rankTasks]
    · have hfun : (fun r => rankTasks 0 p n r) = chunkTasks p n := by
        funext r
        rw [rankTasks, if_neg hp1, if_pos rfl]
      rw [hfun, chunkTasks_join p n p (le_refl p),
        Nat.mul_div_cancel_left n hp]
  · intro r hr
    by_cases hp1 : p = 1
    · subst hp1
      have hr0 : r = 0 := by omega
      subst hr0
      simp [rankTasks]
    · rw [rankTasks, if_neg hp1, if_pos rfl]
      rfl
  · intro r hr t
    by_cases hp1 : p = 1
    · subst hp1
      have hr0 : r = 0 := by omega
      subst hr0
      simp [rankTasks, Nat.mod_one, List.mem_range]
    · rw [rankTasks, if_neg hp1, if_neg (by decide : ¬ ((1 : Int) = 0)),
        if_pos rfl]
      have hfuel : n ≤ r + n * p := by
        have h1 : n ≤ n * p := Nat.le_mul_of_pos_right n hp
        exact le_trans h1 (Nat.le_add_left _ _)
      rw [strideAux_mem p n n r t hfuel]
      constructor
      · rintro ⟨h1, h2, i, rfl⟩
        refine ⟨h2, ?_⟩
        rw [Nat.add_mul_mod_self_right, Nat.mod_eq_of_lt hr]
      · rintro ⟨h2, hmod⟩
        refine ⟨?_, h2, t / p, ?_⟩
        · rw [← hmod]
          exact Nat.mod_le t p
        · rw [← hmod]
          exact (Nat.mod_add_div' t p).symm

/-- Witness for C8 at `nprocs = 2`, `nmap = 5`. -/
theorem map_task_assignment_witness :
    ((List.range 2).flatMap (fun r => rankTasks 0 2 5 r) = List.range 5) ∧
    (3 ∈ rankTasks 1 2 5 1 ↔ 3 < 5 ∧ 3 % 2 = 1) :=
  ⟨(map_task_assignment 2 5 (by decide)).1,
   (map_task_assignment 2 5 (by decide)).2.2 1 (by decide) 3⟩

/-! ## Claim C5: sort_keys / sort_kv correctness -/

theorem mergeSp_perm (cmp : List Nat → List Nat → Int) (flag : Nat) :
    ∀ xs ys, (mergeSp cmp flag xs ys).Perm (xs ++ ys) := by
  intro xs ys
  induction xs, ys using mergeSp.induct cmp flag with
  | case1 ys => simp [mergeSp]
  | case2 x xs => simp [mergeSp]
  | case3 x xs y ys c hc ih =>
    rw [mergeSp, if_pos hc]
    exact (ih.cons x)
  | case4 x xs y ys c hc1 hc2 ih =>
    rw [mergeSp, if_neg hc1, if_pos hc2]
    exact (ih.cons y).trans List.perm_middle.symm
  | case5 x xs y ys c hc1 hc2 ih =>
    rw [mergeSp, if_neg hc1, if_neg hc2]
    refine ((ih.cons y).cons x).trans ?_
    exact (List.perm_middle.symm.cons x)

theorem mergeSp_mem (cmp : List Nat → List Nat → Int) (flag : Nat)
    (xs ys : List KVPair) (b : KVPair) (hb : b ∈ mergeSp cmp flag xs ys) :
    b ∈ xs ∨ b ∈ ys := by
  have := (mergeSp_perm cmp flag xs ys).mem_iff.mp hb
  simpa using this

theorem mergeSp_sorted (cmp : List Nat → List Nat → Int) (flag : Nat)
    (htot : ∀ x y, cmp x y ≤ 0 ∨ cmp y x ≤ 0)
    (htr : ∀ x y z, cmp x y ≤ 0 → cmp y z ≤ 0 → cmp x z ≤ 0)
    (hanti : ∀ x y, cmp x y = 0 → cmp y x ≤ 0) :
    ∀ xs ys,
      List.Sorted (fun a b => cmp (sel flag a) (sel flag b) ≤ 0) xs →
      List.Sorted (fun a b => cmp (sel flag a) (sel flag b) ≤ 0) ys →
      List.Sorted (fun a b => cmp (sel flag a) (sel flag b) ≤ 0)
        (mergeSp cmp flag xs ys) := by
  intro xs ys
  induction xs, ys using mergeSp.induct cmp flag with
  | case1 ys =>
    intro _ hys
    simpa [mergeSp] using hys
  | case2 x xs =>
    intro hxs _
    simpa [mergeSp] using hxs
  | case3 x xs y ys c hc ih =>
    intro hxs hys
    rw [mergeSp, if_pos hc]
    rw [List.sorted_cons] at hxs ⊢
    refine ⟨?_, ih hxs.2 hys⟩
    intro b hb
    rcases mergeSp_mem cmp flag xs (y :: ys) b hb with hb | hb
    · exact hxs.1 b hb
    · rcases List.mem_cons.mp hb with rfl | hb
      · exact le_of_lt hc
      · rw [List.sorted_cons] at hys
        exact htr _ _ _ (le_of_lt hc) (hys.1 b hb)
  | case4 x xs y ys c hc1 hc2 ih =>
    intro hxs hys
    rw [mergeSp, if_neg hc1, if_pos hc2]
    rw [List.sorted_cons] at hys ⊢
    have hyx : cmp (sel flag y) (sel flag x) ≤ 0 := by
      rcases htot (sel flag x) (sel flag y) with h | h
      · exact absurd h (by omega)
      · exact h
    refine ⟨?_, ih hxs hys.2⟩
    intro b hb
    rcases mergeSp_mem cmp flag (x :: xs) ys b hb with hb | hb
    · rcases List.mem_cons.mp hb with rfl | hb
      · exact hyx
      · rw [List.sorted_cons] at hxs
        exact htr _ _ _ hyx (hxs.1 b hb)
    · exact hys.1 b hb
  | case5 x xs y ys c hc1 hc2 ih =>
    intro hxs hys
    rw [mergeSp, if_neg hc1, if_neg hc2]
    have hceq : cmp (sel flag x) (sel flag y) = 0 := by omega
    have hxy : cmp (sel flag x) (sel flag y) ≤ 0 := by omega
    have hyx : cmp (sel flag y) (sel flag x) ≤ 0 := hanti _ _ hceq
    rw [List.sorted_cons] at hxs hys
    rw [List.sorted_cons, List.sorted_cons]
    refine ⟨?_, ?_, ih hxs.2 hys.2⟩
    · intro b hb
      rcases List.mem_cons.mp hb with rfl | hb
      · exact hxy
      · rcases mergeSp_mem cmp flag xs ys b hb with hb | hb
        · exact hxs.1 b hb
        · exact htr _ _ _ hxy (hys.1 b hb)
    · intro b hb
      rcases mergeSp_mem cmp flag xs ys b hb with hb | hb
      · exact htr _ _ _ hyx (hxs.1 b hb)
      · exact hys.1 b hb

theorem mergeQueue_perm (cmp : List Nat → List Nat → Int) (flag : Nat) :
    ∀ L, (mergeQueue cmp flag L).Perm L.flatten := by
  intro L
  induction L using mergeQueue.induct cmp flag with
  | case1 => simp [mergeQueue]
  | case2 x => simp [mergeQueue]
  | case3 x y rest ih =>
    rw [mergeQueue]
    refine ih.trans ?_
    rw [List.flatten_append]
    simp only [List.flatten_cons, List.flatten_nil, List.append_nil]
    refine (((mergeSp_perm cmp flag x y).append_left rest.flatten).trans ?_)
    refine List.perm_append_comm.trans ?_
    rw [List.append_assoc]

theorem mergeQueue_sorted (cmp : List Nat → List Nat → Int) (flag : Nat)
    (htot : ∀ x y, cmp x y ≤ 0 ∨ cmp y x ≤ 0)
    (htr : ∀ x y z, cmp x y ≤ 0 → cmp y z ≤ 0 → cmp x z ≤ 0)
    (hanti : ∀ x y, cmp x y = 0 → cmp y x ≤ 0) :
    ∀ L, (∀ l ∈ L,
        List.Sorted (fun a b => cmp (sel flag a) (sel flag b) ≤ 0) l) →
      List.Sorted (fun a b => cmp (sel flag a) (sel flag b) ≤ 0)
        (mergeQueue cmp flag L) := by
  intro L
  induction L using mergeQueue.induct cmp flag with
  | case1 => intro _; simp [mergeQueue]
  | case2 x => intro h; simpa [mergeQueue] using h x (by simp)
  | case3 x y rest ih =>
    intro h
    rw [mergeQueue]
    apply ih
    intro l hl
    rcases List.mem_append.mp hl with hl | hl
    · exact h l (by simp [hl])
    · rcases List.mem_singleton.mp hl with rfl
      exact mergeSp_sorted cmp flag htot htr hanti x y
        (h x (by simp)) (h y (by simp))

theorem pageSort_perm (cmp : List Nat → List Nat → Int) (flag : Nat)
    (p : List KVPair) : (pageSort cmp flag p).Perm p :=
  List.perm_insertionSort _ p

theorem pageSort_sorted (cmp : List Nat → List Nat → Int) (flag : Nat)
    (htot : ∀ x y, cmp x y ≤ 0 ∨ cmp y x ≤ 0)
    (htr : ∀ x y z, cmp x y ≤ 0 → cmp y z ≤ 0 → cmp x z ≤ 0)
    (p : List KVPair) :
    List.Sorted (fun a b => cmp (sel flag a) (sel flag b) ≤ 0)
      (pageSort cmp flag p) := by
  haveI : IsTotal KVPair (fun a b => cmp (sel flag a) (sel flag b) ≤ 0) :=
    ⟨fun a b => htot _ _⟩
  haveI : IsTrans KVPair (fun a b => cmp (sel flag a) (sel flag b) ≤ 0) :=
    ⟨fun a b c => htr _ _ _⟩
  exact List.sorted_insertionSort _ p

theorem flatten_map_pageSort_perm (cmp : List Nat → List Nat → Int)
    (flag : Nat) :
    ∀ pages : List (List KVPair),
      (pages.map (pageSort cmp flag)).flatten.Perm pages.flatten := by
  intro pages
  induction pages with
  | nil => simp
  | cons p rest ih =>
    simp only [List.map_cons, List.flatten_cons]
    exact (pageSort_perm cmp flag p).append ih

/-- C5.  After `sort_kv` with a comparator that is a total order
(total, transitive, with symmetric ties), the resulting KV holds the same
multiset of records as the input pages, and iterating it in page order
yields the sort field (keys for `sort_keys`, `flag = 0`; values for
`sort_values`, `flag = 1`) in non-decreasing order under `cmp` — both on
the single-page in-memory path and on the multi-page
spool-and-merge-sort path. -/
theorem sort_kv_correct (cmp : List Nat → List Nat → Int) (flag : Nat)
    (pages : List (List KVPair))
    (htot : ∀ x y, cmp x y ≤ 0 ∨ cmp y x ≤ 0)
    (htr : ∀ x y z, cmp x y ≤ 0 → cmp y z ≤ 0 → cmp x z ≤ 0)
    (hanti : ∀ x y, cmp x y = 0 → cmp y x ≤ 0) :
    (sortKVrun cmp flag pages).Perm pages.flatten ∧
    List.Sorted (fun a b => cmp (sel flag a) (sel flag b) ≤ 0)
      (sortKVrun cmp flag pages) := by
  by_cases h1 : pages.length = 1
  · obtain ⟨p, rfl⟩ : ∃ p, pages = [p] := by
      cases pages with
      | nil => simp at h1
      | cons p rest =>
        cases rest with
        | nil => exact ⟨p, rfl⟩
        | cons q rest2 => simp at h1
    rw [sortKVrun, if_pos h1]
    constructor
    · simpa using pageSort_perm cmp flag p
    · exact pageSort_sorted cmp flag htot htr p
  · rw [sortKVrun, if_neg h1]
    constructor
    · exact (mergeQueue_perm cmp flag _).trans
        (flatten_map_pageSort_perm cmp flag pages)
    · apply mergeQueue_sorted cmp flag htot htr hanti
      intro l hl
      rcases List.mem_map.mp hl with ⟨p, _, rfl⟩
      exact pageSort_sorted cmp flag htot htr p

/-- Witness for C5 with byte-sum comparison on a two-page input. -/
theorem sort_kv_correct_witness :
    ((sortKVrun (fun a b => (a.sum : Int) - (b.sum : Int)) 0
        [[([9], [1]), ([2], [2])], [([5], [3])]]).Perm
      [([9], [1]), ([2], [2]), ([5], [3])]) ∧
    List.Sorted (fun a b : KVPair =>
        ((sel 0 a).sum : Int) - ((sel 0 b).sum : Int) ≤ 0)
      (sortKVrun (fun a b => (a.sum : Int) - (b.sum : Int)) 0
        [[([9], [1]), ([2], [2])], [([5], [3])]]) := by
  have h := sort_kv_correct (fun a b => (a.sum : Int) - (b.sum : Int)) 0
    [[([9], [1]), ([2], [2])], [([5], [3])]]
    (fun x y => by dsimp only; omega) (fun x y z => by dsimp only; omega)
    (fun x y => by dsimp only; omega)
  exact ⟨h.1, h.2⟩

end MRMPI
